import Mathlib

/-!
Verification of the gen-block language-service core: a shallow embedding of
the tokenizer / block finder / content transformer (scanner module), the
text editor with VLQ source-map emission (`text-editor.ts`), and the
position mapper with its VLQ decoder (`position-mapper.ts`).

Source text is modelled as `List Char`; JS string `slice` becomes
clamping `take`/`drop`; JS numbers appear as `Nat` (offsets, depths) and
`Int` (signed deltas and adjustments).  Bounded `while` loops are modelled
by structurally recursive functions taking a fuel argument that is always
instantiated large enough (each loop advances its position by at least one
per iteration, so `length + 1` fuel suffices); lemmas below depend only on
fuel-independent facts (progress and slice shape), never on a particular
fuel value being exact.
-/

set_option maxRecDepth 10000

/-! ## Generic list helpers (JS string primitives) -/

/-- JS `s.slice(a, b)` on a string modelled as a list: clamping, half-open. -/
def sliceList (s : List Char) (a b : Nat) : List Char :=
  (s.drop a).take (b - a)

/-- JS `s.split(sep)` for a single-character separator. Always nonempty. -/
def splitOnChar (sep : Char) : List Char → List (List Char)
  | [] => [[]]
  | c :: cs =>
    match splitOnChar sep cs with
    | [] => [[]]
    | p :: ps => if c = sep then [] :: p :: ps else (c :: p) :: ps

/-- JS `parts.join(sep)` for a single-character separator. -/
def joinWith (sep : Char) : List (List Char) → List Char
  | [] => []
  | [p] => p
  | p :: ps => p ++ sep :: joinWith sep ps

theorem splitOnChar_ne_nil (sep : Char) (s : List Char) : splitOnChar sep s ≠ [] := by
  cases s with
  | nil => simp [splitOnChar]
  | cons c cs =>
    simp only [splitOnChar]
    cases h : splitOnChar sep cs with
    | nil => simp
    | cons p ps =>
      by_cases hc : c = sep <;> simp [hc]

theorem mem_splitOnChar_not_sep (sep : Char) (s : List Char) :
    ∀ p ∈ splitOnChar sep s, sep ∉ p := by
  induction s with
  | nil => intro p hp; simp [splitOnChar] at hp; simp [hp]
  | cons c cs ih =>
    intro p hp
    simp only [splitOnChar] at hp
    cases h : splitOnChar sep cs with
    | nil => exact absurd h (splitOnChar_ne_nil sep cs)
    | cons q qs =>
      rw [h] at hp
      dsimp only at hp
      rw [h] at ih
      by_cases hc : c = sep
      · rw [if_pos hc] at hp
        rcases List.mem_cons.mp hp with hp | hp
        · simp [hp]
        · exact ih p hp
      · rw [if_neg hc] at hp
        rcases List.mem_cons.mp hp with hp | hp
        · subst hp
          intro hmem
          rcases List.mem_cons.mp hmem with h1 | h1
          · exact hc h1.symm
          · exact ih q (List.mem_cons_self q qs) h1
        · exact ih p (List.mem_cons_of_mem q hp)

theorem splitOnChar_length (sep : Char) (s : List Char) :
    (splitOnChar sep s).length = s.count sep + 1 := by
  induction s with
  | nil => simp [splitOnChar]
  | cons c cs ih =>
    simp only [splitOnChar]
    cases h : splitOnChar sep cs with
    | nil => exact absurd h (splitOnChar_ne_nil sep cs)
    | cons p ps =>
      dsimp only
      rw [h] at ih
      by_cases hc : c = sep
      · rw [if_pos hc]
        subst hc
        simp only [List.length_cons] at ih ⊢
        rw [List.count_cons_self]
        omega
      · rw [if_neg hc]
        simp only [List.length_cons] at ih ⊢
        rw [List.count_cons_of_ne (Ne.symm hc)]
        omega

theorem splitOnChar_no_sep (sep : Char) (p : List Char) (hp : sep ∉ p) :
    splitOnChar sep p = [p] := by
  induction p with
  | nil => simp [splitOnChar]
  | cons c cs ih =>
    have hc : c ≠ sep := fun h => hp (h ▸ List.mem_cons_self c cs)
    have hcs : sep ∉ cs := fun h => hp (List.mem_cons_of_mem c h)
    simp only [splitOnChar, ih hcs, if_neg hc]

theorem splitOnChar_append_sep (sep : Char) (p rest : List Char) (hp : sep ∉ p) :
    splitOnChar sep (p ++ sep :: rest) = p :: splitOnChar sep rest := by
  induction p with
  | nil =>
    simp only [List.nil_append, splitOnChar]
    cases h : splitOnChar sep rest with
    | nil => exact absurd h (splitOnChar_ne_nil sep rest)
    | cons q qs => simp
  | cons c cs ih =>
    have hc : c ≠ sep := fun h => hp (h ▸ List.mem_cons_self c cs)
    have hcs : sep ∉ cs := fun h => hp (List.mem_cons_of_mem c h)
    show splitOnChar sep (c :: (cs ++ sep :: rest)) = (c :: cs) :: splitOnChar sep rest
    simp only [splitOnChar, ih hcs, if_neg hc]

theorem splitOnChar_joinWith (sep : Char) :
    ∀ (parts : List (List Char)), parts ≠ [] → (∀ p ∈ parts, sep ∉ p) →
      splitOnChar sep (joinWith sep parts) = parts := by
  intro parts
  induction parts with
  | nil => intro h; exact absurd rfl h
  | cons p ps ih =>
    intro _ hsep
    cases ps with
    | nil =>
      exact splitOnChar_no_sep sep p (hsep p (List.mem_cons_self p []))
    | cons q qs =>
      have hrest : splitOnChar sep (joinWith sep (q :: qs)) = q :: qs :=
        ih (by simp) (fun r hr => hsep r (List.mem_cons_of_mem p hr))
      have hp : sep ∉ p := hsep p (List.mem_cons_self p _)
      show splitOnChar sep (p ++ sep :: joinWith sep (q :: qs)) = p :: q :: qs
      rw [splitOnChar_append_sep sep p _ hp, hrest]

theorem count_joinWith (sep : Char) :
    ∀ (parts : List (List Char)), parts ≠ [] → (∀ p ∈ parts, sep ∉ p) →
      (joinWith sep parts).count sep = parts.length - 1 := by
  intro parts
  induction parts with
  | nil => intro h; exact absurd rfl h
  | cons p ps ih =>
    intro _ hsep
    cases ps with
    | nil =>
      simp only [joinWith, List.length_cons, List.length_nil]
      have hp : sep ∉ p := hsep p (List.mem_cons_self p [])
      simp [List.count_eq_zero.mpr hp]
    | cons q qs =>
      have hrest := ih (by simp) (fun r hr => hsep r (List.mem_cons_of_mem p hr))
      have hp : sep ∉ p := hsep p (List.mem_cons_self p _)
      show (p ++ sep :: joinWith sep (q :: qs)).count sep = (q :: qs).length + 1 - 1
      rw [List.count_append, List.count_cons, List.count_eq_zero.mpr hp, hrest]
      simp

theorem slice_append_drop (s : List Char) (a b : Nat) (h : a ≤ b) :
    sliceList s a b ++ s.drop b = s.drop a := by
  unfold sliceList
  have : s.drop b = (s.drop a).drop (b - a) := by
    rw [List.drop_drop]
    congr 1
    omega
  rw [this, List.take_append_drop]

/-! ## Tokenizer (scanner module)

Embedding of `tokenize` and its character-class helpers from the
token-based scanner source file. -/

inductive TokenType where
  | IdentifierName
  | Punctuator
  | StringLiteral
  | TemplateLiteral
  | SingleLineComment
  | MultiLineComment
  | WhiteSpace
  | LineTerminatorSequence
  | Other
deriving DecidableEq, Repr

structure Token where
  type : TokenType
  value : List Char
  start : Nat
  endPos : Nat
deriving DecidableEq, Repr

instance : Inhabited Token := ⟨⟨TokenType.Other, [], 0, 0⟩⟩

/-- `/[a-zA-Z_$]/` -/
def isIdentStart (c : Char) : Bool :=
  c.isAlpha || c = '_' || c = '$'

/-- `/[a-zA-Z0-9_$]/` -/
def isIdentPart (c : Char) : Bool :=
  c.isAlpha || c.isDigit || c = '_' || c = '$'

/-- `/[0-9]/` -/
def isDigitChar (c : Char) : Bool := c.isDigit

/-- the punctuator character set of the scanner -/
def isPunctChar (c : Char) : Bool :=
  c = '\x7b' || c = '\x7d' || c = '(' || c = ')' || c = '[' || c = ']' ||
  c = ';' || c = ':' || c = ',' || c = '.' || c = '<' || c = '>' ||
  c = '?' || c = '!' || c = '+' || c = '-' || c = '*' || c = '/' ||
  c = '%' || c = '=' || c = '&' || c = '|' || c = '^' || c = '~' ||
  c = '@' || c = '#'

/-- generic `while (pos < len && p s[pos]) pos++` -/
def skipWhile (s : List Char) (p : Char → Bool) : Nat → Nat → Nat
  | 0, pos => pos
  | fuel + 1, pos =>
    match s[pos]? with
    | none => pos
    | some c => if p c then skipWhile s p fuel (pos + 1) else pos

/-- string-literal scan loop: `while (pos < len && s[pos] !== q) { backslash
consumes two chars, else one }`; stops at the closing quote (not past it). -/
def skipQuoted (s : List Char) (q : Char) : Nat → Nat → Nat
  | 0, pos => pos
  | fuel + 1, pos =>
    match s[pos]? with
    | none => pos
    | some c =>
      if c = q then pos
      else if c = '\\' then skipQuoted s q fuel (pos + 2)
      else skipQuoted s q fuel (pos + 1)

/-- multi-line comment loop: `while (pos < len - 1 && !(s[pos]='*' && s[pos+1]='/')) pos++` -/
def skipBlockComment (s : List Char) : Nat → Nat → Nat
  | 0, pos => pos
  | fuel + 1, pos =>
    if pos < s.length - 1 then
      if s[pos]? = some '*' ∧ s[pos + 1]? = some '/' then pos
      else skipBlockComment s fuel (pos + 1)
    else pos

/-- template-expression region: brace-depth loop of the template scanner,
with nested template / nested quoted-string skipping; every iteration ends
with the unconditional `pos++`. -/
def skipTmplExpr (s : List Char) : Nat → Nat → Nat → Nat
  | 0, pos, _ => pos
  | fuel + 1, pos, depth =>
    if depth = 0 then pos
    else
      match s[pos]? with
      | none => pos
      | some c =>
        if c = '\x7b' then skipTmplExpr s fuel (pos + 1) (depth + 1)
        else if c = '\x7d' then skipTmplExpr s fuel (pos + 1) (depth - 1)
        else if c = '\x60' then
          skipTmplExpr s fuel (skipQuoted s '\x60' (s.length + 1) (pos + 1) + 1) depth
        else if c = '"' ∨ c = '\x27' then
          skipTmplExpr s fuel (skipQuoted s c (s.length + 1) (pos + 1) + 1) depth
        else skipTmplExpr s fuel (pos + 1) depth

/-- outer template-literal loop: stops at the closing back-quote. -/
def skipTemplate (s : List Char) : Nat → Nat → Nat
  | 0, pos => pos
  | fuel + 1, pos =>
    match s[pos]? with
    | none => pos
    | some c =>
      if c = '\x60' then pos
      else if c = '\\' then skipTemplate s fuel (pos + 2)
      else if c = '$' ∧ s[pos + 1]? = some '\x7b' then
        skipTemplate s fuel (skipTmplExpr s (s.length + 1) (pos + 2) 1)
      else skipTemplate s fuel (pos + 1)

/-- number scan loop, `e`/`E` followed by a sign consuming two characters -/
def skipNumber (s : List Char) : Nat → Nat → Nat
  | 0, pos => pos
  | fuel + 1, pos =>
    match s[pos]? with
    | none => pos
    | some c =>
      if isDigitChar c || c = '.' || c = 'e' || c = 'E' || c = '_' then
        if (c = 'e' ∨ c = 'E') ∧ (s[pos + 1]? = some '+' ∨ s[pos + 1]? = some '-') then
          skipNumber s fuel (pos + 2)
        else skipNumber s fuel (pos + 1)
      else pos

/-- longest-match punctuator end: 3-character, then 2-character operator
forms (string comparisons on `slice(pos, pos+2/3)`), else one char. -/
def punctEnd (s : List Char) (pos : Nat) : Nat :=
  let threeChar := sliceList s pos (pos + 3)
  let twoChar := sliceList s pos (pos + 2)
  if threeChar = ("===".toList) ∨ threeChar = ("!==".toList) ∨
     threeChar = (">>>".toList) ∨ threeChar = ("...".toList) ∨
     threeChar = ("**=".toList) then pos + 3
  else if twoChar = ("==".toList) ∨ twoChar = ("!=".toList) ∨
     twoChar = ("<=".toList) ∨ twoChar = (">=".toList) ∨
     twoChar = ("&&".toList) ∨ twoChar = ("||".toList) ∨
     twoChar = ("++".toList) ∨ twoChar = ("--".toList) ∨
     twoChar = ("+=".toList) ∨ twoChar = ("-=".toList) ∨
     twoChar = ("*=".toList) ∨ twoChar = ("/=".toList) ∨
     twoChar = ("=>".toList) ∨ twoChar = ("<<".toList) ∨
     twoChar = (">>".toList) ∨ twoChar = ("??".toList) ∨
     twoChar = ("?.".toList) ∨ twoChar = ("<-".toList) then pos + 2
  else pos + 1

/-- number token end: scan loop plus optional BigInt `n` suffix. -/
def numEnd (s : List Char) (pos : Nat) : Nat :=
  let p := skipNumber s (s.length + 1) pos
  if s[p]? = some 'n' then p + 1 else p

/-- One step of `tokenize`: given the current character, the token type and
the position just past the token, following the branch order of the source. -/
def scanToken (s : List Char) (pos : Nat) (c : Char) : TokenType × Nat :=
  if c = ' ' || c = '\t' then
    (TokenType.WhiteSpace, skipWhile s (fun x => x = ' ' || x = '\t') (s.length + 1) pos)
  else if c = '\n' || c = '\r' then
    (TokenType.LineTerminatorSequence,
      if c = '\r' ∧ s[pos + 1]? = some '\n' then pos + 2 else pos + 1)
  else if c = '/' ∧ s[pos + 1]? = some '/' then
    (TokenType.SingleLineComment,
      skipWhile s (fun x => !(x = '\n') && !(x = '\r')) (s.length + 1) (pos + 2))
  else if c = '/' ∧ s[pos + 1]? = some '*' then
    (TokenType.MultiLineComment, skipBlockComment s (s.length + 1) (pos + 2) + 2)
  else if c = '"' ∨ c = '\x27' then
    (TokenType.StringLiteral, skipQuoted s c (s.length + 1) (pos + 1) + 1)
  else if c = '\x60' then
    (TokenType.TemplateLiteral, skipTemplate s (s.length + 1) (pos + 1) + 1)
  else if isIdentStart c then
    (TokenType.IdentifierName, skipWhile s isIdentPart (s.length + 1) pos)
  else if isPunctChar c then
    (TokenType.Punctuator, punctEnd s pos)
  else if isDigitChar c || (c = '.' && (s[pos + 1]?.any isDigitChar)) then
    (TokenType.Other, numEnd s pos)
  else (TokenType.Other, pos + 1)

/-- the `while (pos < source.length)` driver of `tokenize` -/
def tokenizeAux (s : List Char) : Nat → Nat → List Token
  | 0, _ => []
  | fuel + 1, pos =>
    match s[pos]? with
    | none => []
    | some c =>
      let r := scanToken s pos c
      ⟨r.1, sliceList s pos r.2, pos, r.2⟩ :: tokenizeAux s fuel r.2

def tokenize (s : List Char) : List Token :=
  tokenizeAux s s.length 0

/-! ## Block finder (`hasGenBlocks`, `findGenBlocks`) -/

structure GenBlock where
  start : Nat
  endPos : Nat
  content : List Char
  braceStart : Nat
deriving DecidableEq, Repr

/-- `/\w/` (regex word character: no `$`) -/
def isWordChar (c : Char) : Bool :=
  c.isAlpha || c.isDigit || c = '_'

/-- the JS `\s` character class -/
def isJsWs (c : Char) : Bool :=
  c = ' ' || c = '\t' || c = '\n' || c = '\r' || c = '\x0b' || c = '\x0c' ||
  c.val = 0xa0 || c.val = 0x1680 || (0x2000 ≤ c.val && c.val ≤ 0x200a) ||
  c.val = 0x2028 || c.val = 0x2029 || c.val = 0x202f || c.val = 0x205f ||
  c.val = 0x3000 || c.val = 0xfeff

/-- Whether the regex `/\bgen\s*\{/` matches at position `i`: word boundary,
the literal `gen`, greedily skipped `\s*`, then `{` (the skip-then-check is
equivalent to the backtracking engine since a brace is not `\s`). -/
def genTextMatchAt (s : List Char) (i : Nat) : Bool :=
  (match s[i - 1]? with
   | some c => decide (i = 0) || !(isWordChar c)
   | none => true) &&
  s[i]? = some 'g' && s[i + 1]? = some 'e' && s[i + 2]? = some 'n' &&
  (let j := skipWhile s isJsWs (s.length + 1) (i + 3)
   s[j]? = some '\x7b')

/-- `hasGenBlocks`: the `/\bgen\s*\{/.test(source)` pre-check. -/
def hasGenBlocks (s : List Char) : Bool :=
  (List.range s.length).any (genTextMatchAt s)

/-- insignificant-token test used to find the next significant token after `gen` -/
def isInsignificant (t : Token) : Bool :=
  t.type = TokenType.WhiteSpace || t.type = TokenType.LineTerminatorSequence ||
  t.type = TokenType.SingleLineComment || t.type = TokenType.MultiLineComment

/-- `while (j < tokens.length && insignificant tokens[j]) j++` -/
def nextSigAux (tokens : List Token) : Nat → Nat → Nat
  | 0, j => j
  | fuel + 1, j =>
    match tokens[j]? with
    | none => j
    | some t => if isInsignificant t then nextSigAux tokens fuel (j + 1) else j

def nextSig (tokens : List Token) (j : Nat) : Nat :=
  nextSigAux tokens (tokens.length + 1) j

/-- brace-depth scan: `while (k < tokens.length && depth > 0)`, counting only
`{` / `}` punctuator tokens; returns the final index and depth. -/
def matchBraceAux (tokens : List Token) : Nat → Nat → Nat → Nat × Nat
  | 0, k, depth => (k, depth)
  | fuel + 1, k, depth =>
    if depth = 0 then (k, depth)
    else
      match tokens[k]? with
      | none => (k, depth)
      | some t =>
        let d :=
          if t.type = TokenType.Punctuator ∧ t.value = ['\x7b'] then depth + 1
          else if t.type = TokenType.Punctuator ∧ t.value = ['\x7d'] then depth - 1
          else depth
        matchBraceAux tokens fuel (k + 1) d

def matchBrace (tokens : List Token) (k : Nat) (depth : Nat) : Nat × Nat :=
  matchBraceAux tokens (tokens.length + 1) k depth

/-- The body of the `findGenBlocks` token loop at index `i`: the candidate
check (a `gen` identifier, skip to the next significant token, require `{`,
balance braces) and the block it pushes, if any. -/
def candidateAt (s : List Char) (tokens : List Token) (i : Nat) : Option GenBlock :=
  match tokens[i]? with
  | none => none
  | some token =>
    if token.type = TokenType.IdentifierName ∧ token.value = ("gen".toList) then
      let j := nextSig tokens (i + 1)
      match tokens[j]? with
      | none => none
      | some braceToken =>
        if braceToken.type = TokenType.Punctuator ∧ braceToken.value = ['\x7b'] then
          let r := matchBrace tokens (j + 1) 1
          if r.2 = 0 then
            match tokens[r.1 - 1]? with
            | none => none
            | some endToken =>
              some ⟨token.start, endToken.endPos,
                sliceList s (braceToken.start + 1) (endToken.endPos - 1),
                braceToken.start⟩
          else none
        else none
    else none

def findGenBlocks (s : List Char) : List GenBlock :=
  if hasGenBlocks s then
    (List.range (tokenize s).length).filterMap (candidateAt s (tokenize s))
  else []

/-! ## Content transformer (`isInsideNestedFunction`, `transformBlockContent`) -/

/-- the inner `for (j = i+1; j < upToIndex; j++)` scan after a `function`
keyword: does any `{` punctuator occur strictly before `upToIndex`? -/
def fnBraceAhead (tokens : List Token) (i upToIndex : Nat) : Bool :=
  (List.range' (i + 1) (upToIndex - (i + 1))).any fun j =>
    let t := tokens.getD j default
    t.type = TokenType.Punctuator && t.value = ['\x7b']

/-- the look-ahead after `=>`: `{` counts, any other non-whitespace,
non-terminator token breaks (expression-bodied arrow). -/
def arrowBraceAhead (tokens : List Token) : List Nat → Bool
  | [] => false
  | j :: js =>
    let next := tokens.getD j default
    if next.type = TokenType.Punctuator && next.value = ['\x7b'] then true
    else if next.type ≠ TokenType.WhiteSpace ∧ next.type ≠ TokenType.LineTerminatorSequence then
      false
    else arrowBraceAhead tokens js

/-- `isInsideNestedFunction(tokens, upToIndex)` -/
def isInsideNestedFunction (tokens : List Token) (upToIndex : Nat) : Bool :=
  let depth := (List.range upToIndex).foldl
    (fun functionDepth i =>
      let t := tokens.getD i default
      let functionDepth :=
        if t.type = TokenType.IdentifierName ∧ t.value = ("function".toList) then
          if fnBraceAhead tokens i upToIndex then functionDepth + 1 else functionDepth
        else functionDepth
      let functionDepth :=
        if t.type = TokenType.Punctuator ∧ t.value = ("=>".toList) then
          if arrowBraceAhead tokens (List.range' (i + 1) (upToIndex - (i + 1))) then
            functionDepth + 1
          else functionDepth
        else functionDepth
      if t.type = TokenType.Punctuator ∧ t.value = ['\x7d'] ∧ functionDepth > 0 then
        functionDepth - 1
      else functionDepth)
    0
  depth > 0

/-- JS `line.trim()` -/
def jsTrim (l : List Char) : List Char :=
  ((l.dropWhile isJsWs).reverse.dropWhile isJsWs).reverse

/-- JS `line.trimEnd()` -/
def jsTrimEnd (l : List Char) : List Char :=
  (l.reverse.dropWhile isJsWs).reverse

/-- `trimmed.startsWith("//")` -/
def startsWithSlashSlash : List Char → Bool
  | '/' :: '/' :: _ => true
  | _ => false

/-- `l.getLast? = some c`, i.e. JS `l.endsWith(c)` for one character -/
def lastIs (l : List Char) (c : Char) : Bool :=
  l.getLast? = some c

/-- `/^(\w+|\[[\w\s,]+\]|\{[\w\s,:]+\})\s*<-\s*(.+)$/` applied to the trimmed
line.  The alternatives are decided by the first character (their first-sets
are disjoint) and each `X+`-before-a-non-class-character is deterministic
greedy matching; the only place the engine can backtrack is `\s*` before
`(.+)$` when everything after the arrow is whitespace, in which case the
largest whitespace prefix leaving a nonempty dot-matchable remainder wins. -/
def isDotChar (c : Char) : Bool :=
  !(c = '\n' || c = '\r' || c.val = 0x2028 || c.val = 0x2029)

def bindTail (v : List Char) (rest : List Char) : Option (List Char × List Char) :=
  match rest.dropWhile isJsWs with
  | '<' :: '-' :: rest2 =>
    let m := (rest2.takeWhile isJsWs).length
    let e := rest2.drop m
    if e ≠ [] then
      if e.all isDotChar then some (v, e) else none
    else
      if h : 1 ≤ m ∧ rest2 ≠ [] then
        let last := rest2.getLast (by exact h.2)
        if isDotChar last then some (v, [last]) else none
      else none
  | _ => none

def bindMatch (t : List Char) : Option (List Char × List Char) :=
  match t with
  | [] => none
  | c :: _ =>
    if isWordChar c then
      let v := t.takeWhile isWordChar
      bindTail v (t.drop v.length)
    else if c = '[' then
      let inner := (t.drop 1).takeWhile (fun x => isWordChar x || isJsWs x || x = ',')
      if inner ≠ [] ∧ ((t.drop 1).drop inner.length).head? = some ']' then
        bindTail ('[' :: inner ++ [']']) ((t.drop 1).drop (inner.length + 1))
      else none
    else if c = '\x7b' then
      let inner := (t.drop 1).takeWhile (fun x => isWordChar x || isJsWs x || x = ',' || x = ':')
      if inner ≠ [] ∧ ((t.drop 1).drop inner.length).head? = some '\x7d' then
        bindTail ('\x7b' :: inner ++ ['\x7d']) ((t.drop 1).drop (inner.length + 1))
      else none
    else none

/-- `exprWithSemi.replace(/;?\s*$/, "")`: remove trailing whitespace and then
one optional semicolon ending the string (leftmost-match characterisation of
the anchored regex). -/
def stripSemiWs (e : List Char) : List Char :=
  let t := jsTrimEnd e
  if lastIs t ';' then t.dropLast else t

/-- the bind-line emission:
`` `${indent}const ${varName} = yield* ${expression}${hasSemicolon ? ";" : ""}` `` -/
def emitBind (line v e : List Char) : List Char :=
  let indent := line.takeWhile isJsWs
  let hasSemicolon := lastIs (jsTrimEnd e) ';'
  indent ++ ("const ".toList) ++ v ++ (" = yield* ".toList) ++ stripSemiWs e ++
    (if hasSemicolon then [';'] else [])

/-- one iteration of the `for (const line of lines)` loop -/
def transformLine (tokens : List Token) (line : List Char) (lineStart lineEnd : Nat) :
    List Char :=
  let trimmed := jsTrim line
  if trimmed.isEmpty || startsWithSlashSlash trimmed then line
  else
    let firstTokenIndex := tokens.findIdx? fun t =>
      decide (lineStart ≤ t.start ∧ t.start < lineEnd)
    let insideNestedFunction :=
      match firstTokenIndex with
      | some idx => isInsideNestedFunction tokens idx
      | none => false
    if !insideNestedFunction then
      match bindMatch trimmed with
      | some (v, e) => emitBind line v e
      | none => line
    else line

def transformLines (tokens : List Token) : List (List Char) → Nat → List (List Char)
  | [], _ => []
  | line :: rest, lineStart =>
    let lineEnd := lineStart + line.length
    transformLine tokens line lineStart lineEnd ::
      transformLines tokens rest (lineEnd + 1)

def transformBlockContent (content : List Char) : List Char :=
  let tokens := tokenize content
  let lines := splitOnChar '\n' content
  joinWith '\n' (transformLines tokens lines 0)

/-! ## VLQ source-map codec

`encodeVLQ` / `encodeMappings` from `text-editor.ts`, `decodeVLQ` /
`decodeMappings` from `position-mapper.ts`.  The JS 32-bit bitwise
operators are modelled by exact `Nat` arithmetic (`& 31` as `% 32`,
`<< s` as `* 2 ^ s`, `>>> 4` as `/ 16`).  This agrees with JS exactly
while every encoded magnitude stays below `2 ^ 31` (so the sign-carrying
digit group value stays below `2 ^ 32`): within that range `ToUint32`
never wraps on the encoder's shifts, and on the decoder's side the final
`>>>= 1` reduces the accumulated group modulo `2 ^ 32`, cancelling any
`Int32` wrap of an intermediate `(digit & 31) << shift`.  At or above
`2 ^ 31` the JS decoder genuinely wraps (`4 << 30` is 0 as an `Int32`)
while this model does not, so every statement proved against this model
carries the corresponding `< 2 ^ 31` bound on line/column values. -/

def b64Chars : List Char :=
  ("ABCDEFGHIJKLMNOPQRSTUVWXYZabcdefghijklmnopqrstuvwxyz0123456789+/".toList)

def b64Char (d : Nat) : Char := b64Chars.getD d 'A'

/-- `BASE64_DECODE[char]`, `undefined` for characters outside the table -/
def b64Decode (c : Char) : Option Nat :=
  b64Chars.findIdx? (fun x => x = c)

/-- the `while (value > 0)` continuation loop of `encodeVLQ`: base-32 digits
of `v`, least significant first, continuation bit on all but the last -/
def encodeRest : Nat → Nat → List Char
  | 0, _ => []
  | fuel + 1, v =>
    let d := v % 32
    let v2 := v / 32
    if v2 = 0 then [b64Char d] else b64Char (d + 32) :: encodeRest fuel v2

/-- `encodeVLQ(value)`: sign-magnitude with sign in the low bit of the first
digit group.  `value >>>= 4` / `>>>= 5` are modelled as exact division,
which matches JS for magnitudes below `2 ^ 32` (see the section comment). -/
def encodeVLQ (x : Int) : List Char :=
  let signBit : Nat := if x < 0 then 1 else 0
  let mag : Nat := x.natAbs
  let digit := (mag % 16) * 2 + signBit
  let rest := mag / 16
  if rest = 0 then [b64Char digit] else b64Char (digit + 32) :: encodeRest rest rest

/-- the character fold of `decodeVLQ`, carrying (shift, value).
`(digit & 31) << shift` is modelled as exact `digit % 32 * 2 ^ shift`,
which matches the JS `Int32`-then-`ToUint32` pipeline as long as the
finished group value is below `2 ^ 32` (see the section comment). -/
def decodeVLQAux : List Char → Nat → Nat → List Int
  | [], _, _ => []
  | c :: cs, shift, value =>
    match b64Decode c with
    | none => decodeVLQAux cs shift value
    | some digit =>
      if 32 ≤ digit then
        decodeVLQAux cs (shift + 5) (value + digit % 32 * 2 ^ shift)
      else
        let value := value + digit % 32 * 2 ^ shift
        let negative := value % 2 = 1
        let v := value / 2
        (if negative then -(v : Int) else (v : Int)) :: decodeVLQAux cs 0 0

def decodeVLQ (cs : List Char) : List Int :=
  decodeVLQAux cs 0 0

/-- a raw correspondence entry (`Mapping` in `text-editor.ts`) -/
structure Mapping where
  originalLine : Nat
  originalColumn : Nat
  generatedLine : Nat
  generatedColumn : Nat
deriving DecidableEq, Repr

/-- the sort comparator of `encodeMappings` (by generated line, then
generated column), as the total preorder realised by the stable JS sort -/
def mapLE (a b : Mapping) : Prop :=
  a.generatedLine < b.generatedLine ∨
    (a.generatedLine = b.generatedLine ∧ a.generatedColumn ≤ b.generatedColumn)

instance : DecidableRel mapLE := fun a b => by
  unfold mapLE; infer_instance

instance : IsTotal Mapping mapLE :=
  ⟨fun a b => by unfold mapLE; omega⟩

instance : IsTrans Mapping mapLE :=
  ⟨fun a b c hab hbc => by unfold mapLE at *; omega⟩

/-- duplicate removal: keep the first of each run of entries sharing a
generated line/column (the input is sorted, so equal keys are adjacent) -/
def dedupGo (last : Mapping) : List Mapping → List Mapping
  | [] => []
  | m :: rest =>
    if last.generatedLine = m.generatedLine ∧ last.generatedColumn = m.generatedColumn then
      dedupGo last rest
    else m :: dedupGo m rest

def dedupGen : List Mapping → List Mapping
  | [] => []
  | m :: rest => m :: dedupGo m rest

/-- `while (lines.length < m.generatedLine) lines.push([]); lines[m.generatedLine-1].push(m)` -/
def buildStep (lines : List (List Mapping)) (m : Mapping) : List (List Mapping) :=
  let lines := lines ++ List.replicate (m.generatedLine - lines.length) []
  lines.set (m.generatedLine - 1) (lines.getD (m.generatedLine - 1) [] ++ [m])

def buildLines (ms : List Mapping) : List (List Mapping) :=
  ms.foldl buildStep []

/-- per-line segment emission, threading `prevGenCol` within the line and
`prevOrigLine` / `prevOrigCol` across lines; the source-index delta is
always 0 -/
def encodeSegments : List Mapping → Int → Int → Int → List (List Char) × Int × Int
  | [], _, prevOrigLine, prevOrigCol => ([], prevOrigLine, prevOrigCol)
  | m :: rest, prevGenCol, prevOrigLine, prevOrigCol =>
    let seg :=
      encodeVLQ ((m.generatedColumn : Int) - prevGenCol) ++
      encodeVLQ 0 ++
      encodeVLQ (((m.originalLine : Int) - 1) - prevOrigLine) ++
      encodeVLQ ((m.originalColumn : Int) - prevOrigCol)
    let r := encodeSegments rest (m.generatedColumn : Int)
      ((m.originalLine : Int) - 1) (m.originalColumn : Int)
    (seg :: r.1, r.2)

/-- the per-line loop: `prevGenCol` resets to 0 at each line, segments join
on `,` -/
def encodeAllLines : List (List Mapping) → Int → Int → List (List Char)
  | [], _, _ => []
  | line :: rest, prevOrigLine, prevOrigCol =>
    let r := encodeSegments line 0 prevOrigLine prevOrigCol
    joinWith ',' r.1 :: encodeAllLines rest r.2.1 r.2.2

/-- `encodeMappings(mappings)` -/
def encodeMappings (mappings : List Mapping) : List Char :=
  let sorted := List.insertionSort mapLE mappings
  let unique := dedupGen sorted
  let lines := buildLines unique
  joinWith ';' (encodeAllLines lines 0 0)

/-- a decoded mapping segment (`DecodedMapping` in `position-mapper.ts`) -/
structure DecodedMapping where
  generatedLine : Int
  generatedColumn : Int
  sourceIndex : Int
  originalLine : Int
  originalColumn : Int
  nameIndex : Option Int
deriving DecidableEq, Repr

/-- the running decoder state (`prevSourceIndex` / `prevOrigLine` /
`prevOrigCol` / `prevNameIndex`) -/
structure DecState where
  sourceIndex : Int
  origLine : Int
  origCol : Int
  nameIndex : Int
deriving DecidableEq, Repr

/-- the `for (const segment of segments)` loop of `decodeMappings`,
carrying the per-line running generated column -/
def decodeSegments : List (List Char) → Nat → Int → DecState →
    List DecodedMapping × DecState
  | [], _, _, st => ([], st)
  | seg :: rest, lineNum, genCol, st =>
    if seg.isEmpty then decodeSegments rest lineNum genCol st
    else
      match decodeVLQ seg with
      | [] => decodeSegments rest lineNum genCol st
      | v0 :: vrest =>
        let genCol := genCol + v0
        match vrest with
        | v1 :: v2 :: v3 :: vtail =>
          let st1 : DecState :=
            { sourceIndex := st.sourceIndex + v1
              origLine := st.origLine + v2
              origCol := st.origCol + v3
              nameIndex := st.nameIndex }
          match vtail with
          | v4 :: _ =>
            let st2 := { st1 with nameIndex := st1.nameIndex + v4 }
            let mapping : DecodedMapping :=
              ⟨(lineNum : Int) + 1, genCol, st2.sourceIndex, st2.origLine + 1,
                st2.origCol, some st2.nameIndex⟩
            let r := decodeSegments rest lineNum genCol st2
            (mapping :: r.1, r.2)
          | [] =>
            let mapping : DecodedMapping :=
              ⟨(lineNum : Int) + 1, genCol, st1.sourceIndex, st1.origLine + 1,
                st1.origCol, none⟩
            let r := decodeSegments rest lineNum genCol st1
            (mapping :: r.1, r.2)
        | _ => decodeSegments rest lineNum genCol st

/-- the `for (lineNum …)` loop of `decodeMappings`: empty lines are skipped
(their index still advances), the generated column resets per line -/
def decodeLines : List (List Char) → Nat → DecState → List DecodedMapping
  | [], _, _ => []
  | line :: rest, lineNum, st =>
    if line.isEmpty then decodeLines rest (lineNum + 1) st
    else
      let r := decodeSegments (splitOnChar ',' line) lineNum 0 st
      r.1 ++ decodeLines rest (lineNum + 1) r.2

/-- `decodeMappings(mappings)` -/
def decodeMappings (mappings : List Char) : List DecodedMapping :=
  decodeLines (splitOnChar ';' mappings) 0 ⟨0, 0, 0, 0⟩

/-- the four coordinates a raw `Mapping` turns into after an encode/decode
round trip (single source, no names) -/
def toDecoded (m : Mapping) : DecodedMapping :=
  ⟨(m.generatedLine : Int), (m.generatedColumn : Int), 0,
    (m.originalLine : Int), (m.originalColumn : Int), none⟩

/-! ## TextEditor (`text-editor.ts`) -/

inductive Edit where
  | overwrite (pos endPos : Nat) (content : List Char)
  | insertLeft (pos : Nat) (content : List Char)
  | insertRight (pos : Nat) (content : List Char)
deriving DecidableEq, Repr

def Edit.pos : Edit → Nat
  | .overwrite p _ _ => p
  | .insertLeft p _ => p
  | .insertRight p _ => p

def Edit.isInsertLeft : Edit → Bool
  | .insertLeft _ _ => true
  | _ => false

def Edit.isInsertRight : Edit → Bool
  | .insertRight _ _ => true
  | _ => false

/-- the `applyEdits` sort comparator: descending position; at equal
positions an `insertRight` sorts ahead of an `insertLeft`; everything else
ties (stable sort keeps insertion order) -/
def editLE (a b : Edit) : Prop :=
  b.pos < a.pos ∨ (b.pos = a.pos ∧ ¬(a.isInsertLeft = true ∧ b.isInsertRight = true))

instance : DecidableRel editLE := fun a b => by
  unfold editLE; infer_instance

structure TextEditor where
  original : List Char
  edits : List Edit
deriving Repr

/-- one splice: JS `result.slice(0,pos) + content + result.slice(end)` -/
def applyOneEdit (r : List Char) : Edit → List Char
  | .overwrite pos endPos content => r.take pos ++ content ++ r.drop endPos
  | .insertLeft pos content => r.take pos ++ content ++ r.drop pos
  | .insertRight pos content => r.take pos ++ content ++ r.drop pos

def sortedEdits (ed : TextEditor) : List Edit :=
  List.insertionSort editLE ed.edits

/-- the edit-application fold of `applyEdits` (descending-position order) -/
def applyEditsResult (ed : TextEditor) : List Char :=
  (sortedEdits ed).foldl applyOneEdit ed.original

/-- `toString()` -/
def editorToString (ed : TextEditor) : List Char :=
  applyEditsResult ed

/-- an entry of the `editRanges` list built in `generateMappings` -/
structure EditRange where
  start : Nat
  endPos : Nat
  replacement : List Char
  insertType : Option Bool
deriving DecidableEq, Repr

def toEditRange : Edit → EditRange
  | .overwrite pos endPos content => ⟨pos, endPos, content, none⟩
  | .insertLeft pos content => ⟨pos, pos, content, some true⟩
  | .insertRight pos content => ⟨pos, pos, content, some false⟩

def rangeLE (a b : EditRange) : Prop := a.start ≤ b.start

instance : DecidableRel rangeLE := fun a b => by
  unfold rangeLE; infer_instance

/-- `mapOriginalToGenerated(origPos, editRanges)`: walk the ranges sorted by
start, `break` on the first range past the position, accumulate signed
length deltas of ranges entirely before it, and map a position strictly
inside a replaced range to the range start (plus prior delta). -/
def mapOriginalToGenerated (origPos : Nat) : List EditRange → Int → Int
  | [], adjustment => (origPos : Int) + adjustment
  | range :: rest, adjustment =>
    if origPos < range.start then (origPos : Int) + adjustment
    else if range.endPos ≤ origPos then
      mapOriginalToGenerated origPos rest
        (adjustment + ((range.replacement.length : Int) - ((range.endPos : Int) - range.start)))
    else (range.start : Int) + adjustment

/-- `posToLineCol(source, pos)`: 1-based line, 0-based column via
`source.slice(0,pos).split("\n")` -/
def posToLineCol (source : List Char) (pos : Nat) : Nat × Nat :=
  let lines := splitOnChar '\n' (source.take pos)
  (lines.length, (lines.getLastD []).length)

/-- the per-original-line mapping walk of `generateMappings`: one mapping
for the line start, then one per column -/
def genMapsAux (result : List Char) (ranges : List EditRange) :
    List (List Char) → Nat → Nat → List Mapping
  | [], _, _ => []
  | origLine :: rest, i, originalPos =>
    let genPos := mapOriginalToGenerated originalPos ranges 0
    let lc := posToLineCol result genPos.toNat
    (⟨i + 1, 0, lc.1, lc.2⟩ : Mapping) ::
      ((List.range origLine.length).map fun col =>
        let charGenPos := mapOriginalToGenerated (originalPos + col) ranges 0
        let clc := posToLineCol result charGenPos.toNat
        (⟨i + 1, col, clc.1, clc.2⟩ : Mapping)) ++
      genMapsAux result ranges rest (i + 1) (originalPos + origLine.length + 1)

/-- `generateMappings(result, edits)` -/
def generateMappings (ed : TextEditor) (result : List Char) (edits : List Edit) :
    List Mapping :=
  let editRanges := List.insertionSort rangeLE (edits.map toEditRange)
  genMapsAux result editRanges (splitOnChar '\n' ed.original) 0 0

/-- the mappings component of `applyEdits()` -/
def applyEditsMappings (ed : TextEditor) : List Mapping :=
  generateMappings ed (applyEditsResult ed) (sortedEdits ed)

/-- `SourceMapData` -/
structure SourceMapData where
  version : Nat
  file : Option (List Char)
  sources : List (List Char)
  sourcesContent : Option (List (Option (List Char)))
  names : List (List Char)
  mappings : List Char
deriving Repr

/-- `generateMap(options)` -/
def generateMap (ed : TextEditor) (source file : Option (List Char))
    (includeContent : Bool) : SourceMapData :=
  { version := 3
    file := file
    sources := [source.getD ("source.ts".toList)]
    sourcesContent := if includeContent then some [some ed.original] else none
    names := []
    mappings := encodeMappings (applyEditsMappings ed) }

/-! ## PositionMapper (`position-mapper.ts`) -/

structure PositionMapper where
  decodedMappings : List DecodedMapping
  originalSource : List Char
  transformedSource : List Char

/-- the `PositionMapper` constructor applied to a source map -/
def PositionMapper.ofMap (map : SourceMapData) (originalSource transformedSource : List Char) :
    PositionMapper :=
  ⟨decodeMappings map.mappings, originalSource, transformedSource⟩

/-- `positionToLineColumn(source, pos)` (same computation as the editor's
`posToLineCol`) -/
def positionToLineColumn (source : List Char) (pos : Nat) : Nat × Nat :=
  let lines := splitOnChar '\n' (source.take pos)
  (lines.length, (lines.getLastD []).length)

/-- `lineColumnToPosition(source, line, column)` -/
def lineColumnToPosition (source : List Char) (line : Int) (column : Int) : Int :=
  let lines := splitOnChar '\n' source
  (((lines.take (line - 1).toNat).map (fun l => (l.length : Int) + 1)).sum) + column

/-- the best-mapping fold: largest `generatedColumn ≤ column`, first such on
ties (a strictly greater column is required to replace the current best) -/
def bestByGenCol (lineMappings : List DecodedMapping) (column : Int) :
    Option DecodedMapping :=
  lineMappings.foldl
    (fun best m =>
      if m.generatedColumn ≤ column then
        match best with
        | none => some m
        | some b => if b.generatedColumn < m.generatedColumn then some m else best
      else best)
    none

def bestByOrigCol (lineMappings : List DecodedMapping) (column : Int) :
    Option DecodedMapping :=
  lineMappings.foldl
    (fun best m =>
      if m.originalColumn ≤ column then
        match best with
        | none => some m
        | some b => if b.originalColumn < m.originalColumn then some m else best
      else best)
    none

/-- the `for (let l = line - 1; l >= 1; l--)` fallback of
`findMappingForGenerated` -/
def findPrevGenLine (mappings : List DecodedMapping) : Nat → Option DecodedMapping
  | 0 => none
  | l + 1 =>
    let prevLineMappings := mappings.filter (fun m => m.generatedLine = ((l + 1 : Nat) : Int))
    if prevLineMappings.isEmpty then findPrevGenLine mappings l
    else prevLineMappings.getLast?

def findPrevOrigLine (mappings : List DecodedMapping) : Nat → Option DecodedMapping
  | 0 => none
  | l + 1 =>
    let prevLineMappings := mappings.filter (fun m => m.originalLine = ((l + 1 : Nat) : Int))
    if prevLineMappings.isEmpty then findPrevOrigLine mappings l
    else prevLineMappings.getLast?

/-- `findMappingForGenerated(line, column)` -/
def findMappingForGenerated (mappings : List DecodedMapping) (line : Nat) (column : Int) :
    Option DecodedMapping :=
  let lineMappings := mappings.filter (fun m => m.generatedLine = (line : Int))
  if lineMappings.isEmpty then findPrevGenLine mappings (line - 1)
  else
    match bestByGenCol lineMappings column with
    | some best => some best
    | none => lineMappings.head?

/-- `findMappingForOriginal(line, column)` -/
def findMappingForOriginal (mappings : List DecodedMapping) (line : Nat) (column : Int) :
    Option DecodedMapping :=
  let lineMappings := mappings.filter (fun m => m.originalLine = (line : Int))
  if lineMappings.isEmpty then findPrevOrigLine mappings (line - 1)
  else
    match bestByOrigCol lineMappings column with
    | some best => some best
    | none => lineMappings.head?

/-- `originalToTransformed(pos)` -/
def originalToTransformed (mapper : PositionMapper) (pos : Nat) : Int :=
  let lc := positionToLineColumn mapper.originalSource pos
  match findMappingForOriginal mapper.decodedMappings lc.1 (lc.2 : Int) with
  | none => (pos : Int)
  | some mapping =>
    let columnOffset : Int := (lc.2 : Int) - mapping.originalColumn
    let targetColumn := mapping.generatedColumn + columnOffset
    lineColumnToPosition mapper.transformedSource mapping.generatedLine (max 0 targetColumn)

/-- `transformedToOriginal(pos)` -/
def transformedToOriginal (mapper : PositionMapper) (pos : Nat) : Int :=
  let lc := positionToLineColumn mapper.transformedSource pos
  match findMappingForGenerated mapper.decodedMappings lc.1 (lc.2 : Int) with
  | none => (pos : Int)
  | some mapping =>
    let columnOffset : Int := (lc.2 : Int) - mapping.generatedColumn
    let targetColumn := mapping.originalColumn + columnOffset
    lineColumnToPosition mapper.originalSource mapping.originalLine (max 0 targetColumn)

/-! ## Tokenizer invariants: progress, coverage, contiguity -/

theorem skipWhile_ge (s : List Char) (p : Char → Bool) :
    ∀ fuel pos, pos ≤ skipWhile s p fuel pos := by
  intro fuel
  induction fuel with
  | zero => intro pos; exact Nat.le_refl pos
  | succ n ih =>
    intro pos
    simp only [skipWhile]
    split
    · exact Nat.le_refl pos
    · split
      · exact Nat.le_trans (Nat.le_succ pos) (ih (pos + 1))
      · exact Nat.le_refl pos

theorem skipWhile_first (s : List Char) (p : Char → Bool) (fuel pos : Nat) (c : Char)
    (h : s[pos]? = some c) (hp : p c = true) :
    pos + 1 ≤ skipWhile s p (fuel + 1) pos := by
  simp only [skipWhile]
  rw [h]
  simp only [hp, if_true]
  exact skipWhile_ge s p fuel (pos + 1)

theorem skipQuoted_ge (s : List Char) (q : Char) :
    ∀ fuel pos, pos ≤ skipQuoted s q fuel pos := by
  intro fuel
  induction fuel with
  | zero => intro pos; exact Nat.le_refl pos
  | succ n ih =>
    intro pos
    simp only [skipQuoted]
    split
    · exact Nat.le_refl pos
    · split
      · exact Nat.le_refl pos
      · split
        · exact Nat.le_trans (by omega) (ih (pos + 2))
        · exact Nat.le_trans (Nat.le_succ pos) (ih (pos + 1))

theorem skipBlockComment_ge (s : List Char) :
    ∀ fuel pos, pos ≤ skipBlockComment s fuel pos := by
  intro fuel
  induction fuel with
  | zero => intro pos; exact Nat.le_refl pos
  | succ n ih =>
    intro pos
    simp only [skipBlockComment]
    split
    · split
      · exact Nat.le_refl pos
      · exact Nat.le_trans (Nat.le_succ pos) (ih (pos + 1))
    · exact Nat.le_refl pos

theorem skipTmplExpr_ge (s : List Char) :
    ∀ fuel pos depth, pos ≤ skipTmplExpr s fuel pos depth := by
  intro fuel
  induction fuel with
  | zero => intro pos _; exact Nat.le_refl pos
  | succ n ih =>
    intro pos depth
    simp only [skipTmplExpr]
    split
    · exact Nat.le_refl pos
    · split
      · exact Nat.le_refl pos
      · split
        · exact Nat.le_trans (Nat.le_succ pos) (ih (pos + 1) (depth + 1))
        · split
          · exact Nat.le_trans (Nat.le_succ pos) (ih (pos + 1) (depth - 1))
          · split
            · refine Nat.le_trans ?_ (ih _ depth)
              have := skipQuoted_ge s '\x60' (s.length + 1) (pos + 1)
              omega
            · split
              · refine Nat.le_trans ?_ (ih _ depth)
                exact Nat.le_trans
                  (Nat.le_trans (Nat.le_succ pos) (skipQuoted_ge s _ (s.length + 1) (pos + 1)))
                  (Nat.le_succ _)
              · exact Nat.le_trans (Nat.le_succ pos) (ih (pos + 1) depth)

theorem skipTemplate_ge (s : List Char) :
    ∀ fuel pos, pos ≤ skipTemplate s fuel pos := by
  intro fuel
  induction fuel with
  | zero => intro pos; exact Nat.le_refl pos
  | succ n ih =>
    intro pos
    simp only [skipTemplate]
    split
    · exact Nat.le_refl pos
    · split
      · exact Nat.le_refl pos
      · split
        · exact Nat.le_trans (by omega) (ih (pos + 2))
        · split
          · exact Nat.le_trans
              (Nat.le_trans (by omega : pos ≤ pos + 2) (skipTmplExpr_ge s (s.length + 1) (pos + 2) 1))
              (ih _)
          · exact Nat.le_trans (Nat.le_succ pos) (ih (pos + 1))

theorem skipNumber_ge (s : List Char) :
    ∀ fuel pos, pos ≤ skipNumber s fuel pos := by
  intro fuel
  induction fuel with
  | zero => intro pos; exact Nat.le_refl pos
  | succ n ih =>
    intro pos
    simp only [skipNumber]
    split
    · exact Nat.le_refl pos
    · split
      · split
        · exact Nat.le_trans (by omega) (ih (pos + 2))
        · exact Nat.le_trans (Nat.le_succ pos) (ih (pos + 1))
      · exact Nat.le_refl pos

theorem skipNumber_first (s : List Char) (fuel pos : Nat) (c : Char)
    (h : s[pos]? = some c)
    (hp : (isDigitChar c || c = '.' || c = 'e' || c = 'E' || c = '_') = true) :
    pos + 1 ≤ skipNumber s (fuel + 1) pos := by
  simp only [skipNumber]
  rw [h]
  simp only [hp, if_true]
  split
  · exact Nat.le_trans (by omega) (skipNumber_ge s fuel (pos + 2))
  · exact skipNumber_ge s fuel (pos + 1)

theorem isIdentStart_part (c : Char) (h : isIdentStart c = true) : isIdentPart c = true := by
  simp only [isIdentStart, Bool.or_eq_true] at h
  simp only [isIdentPart, Bool.or_eq_true]
  tauto

theorem punctEnd_ge (s : List Char) (pos : Nat) : pos + 1 ≤ punctEnd s pos := by
  simp only [punctEnd]
  split
  · omega
  · split
    · omega
    · omega

theorem scanToken_progress (s : List Char) (pos : Nat) (c : Char)
    (h : s[pos]? = some c) : pos + 1 ≤ (scanToken s pos c).2 := by
  unfold scanToken
  split
  · next hc =>
    exact skipWhile_first s _ s.length pos c h hc
  · split
    · split
      · omega
      · omega
    · split
      · exact Nat.le_trans (by omega)
          (skipWhile_ge s _ (s.length + 1) (pos + 2))
      · split
        · have := skipBlockComment_ge s (s.length + 1) (pos + 2)
          omega
        · split
          · have := skipQuoted_ge s c (s.length + 1) (pos + 1)
            omega
          · split
            · have := skipTemplate_ge s (s.length + 1) (pos + 1)
              omega
            · split
              · next hstart =>
                exact skipWhile_first s isIdentPart s.length pos c h
                  (isIdentStart_part c hstart)
              · split
                · exact punctEnd_ge s pos
                · split
                  · next hnum =>
                    simp only [numEnd]
                    have hfirst : pos + 1 ≤ skipNumber s (s.length + 1) pos := by
                      apply skipNumber_first s s.length pos c h
                      simp only [Bool.or_eq_true] at hnum ⊢
                      rcases hnum with hd | hdot
                      · tauto
                      · simp only [Bool.and_eq_true] at hdot
                        tauto
                    split
                    · omega
                    · exact hfirst
                  · omega

theorem tokenizeAux_concat (s : List Char) :
    ∀ fuel pos, s.length - pos ≤ fuel →
      ((tokenizeAux s fuel pos).map Token.value).flatten = s.drop pos := by
  intro fuel
  induction fuel with
  | zero =>
    intro pos hle
    have : s.length ≤ pos := by omega
    simp [tokenizeAux, List.drop_eq_nil_of_le this]
  | succ n ih =>
    intro pos hle
    simp only [tokenizeAux]
    cases h : s[pos]? with
    | none =>
      have : s.length ≤ pos := by
        by_contra hlt
        push_neg at hlt
        rw [List.getElem?_eq_getElem hlt] at h
        cases h
      simp [List.drop_eq_nil_of_le this]
    | some c =>
      have hpos : pos < s.length := by
        by_contra hge
        push_neg at hge
        rw [List.getElem?_eq_none hge] at h
        cases h
      have hprog := scanToken_progress s pos c h
      have hrec := ih (scanToken s pos c).2 (by omega)
      simp only [List.map_cons, List.flatten_cons, hrec]
      exact slice_append_drop s pos (scanToken s pos c).2 (by omega)

theorem tokenizeAux_mem_bounds (s : List Char) :
    ∀ fuel pos, ∀ t ∈ tokenizeAux s fuel pos,
      pos ≤ t.start ∧ t.start < s.length ∧ t.start < t.endPos := by
  intro fuel
  induction fuel with
  | zero => intro pos t ht; simp [tokenizeAux] at ht
  | succ n ih =>
    intro pos t ht
    simp only [tokenizeAux] at ht
    cases h : s[pos]? with
    | none => rw [h] at ht; simp at ht
    | some c =>
      rw [h] at ht
      have hpos : pos < s.length := by
        by_contra hge
        push_neg at hge
        rw [List.getElem?_eq_none hge] at h
        cases h
      have hprog := scanToken_progress s pos c h
      rcases List.mem_cons.mp ht with ht | ht
      · subst ht
        dsimp only
        exact ⟨Nat.le_refl pos, hpos, by omega⟩
      · have := ih (scanToken s pos c).2 t ht
        exact ⟨by omega, this.2.1, this.2.2⟩

theorem tokenizeAux_head_start (s : List Char) (fuel pos : Nat) (t : Token)
    (rest : List Token) (h : tokenizeAux s fuel pos = t :: rest) : t.start = pos := by
  cases fuel with
  | zero => simp [tokenizeAux] at h
  | succ n =>
    simp only [tokenizeAux] at h
    cases hc : s[pos]? with
    | none => rw [hc] at h; cases h
    | some c =>
      rw [hc] at h
      simp only [List.cons.injEq] at h
      rw [← h.1]

theorem tokenizeAux_chain (s : List Char) :
    ∀ fuel pos, List.Chain' (fun a b => a.endPos = b.start) (tokenizeAux s fuel pos) := by
  intro fuel
  induction fuel with
  | zero => intro pos; simp [tokenizeAux]
  | succ n ih =>
    intro pos
    simp only [tokenizeAux]
    cases h : s[pos]? with
    | none => simp
    | some c =>
      apply List.Chain'.cons'
      · exact ih (scanToken s pos c).2
      · intro t ht
        cases hrec : tokenizeAux s n (scanToken s pos c).2 with
        | nil => rw [hrec] at ht; cases ht
        | cons u us =>
          rw [hrec] at ht
          simp only [List.head?_cons, Option.mem_def, Option.some.injEq] at ht
          subst ht
          dsimp only
          exact (tokenizeAux_head_start s n _ u us hrec).symm

/-- **C6** (tokenizer reconstruction): for every input, concatenating the
`value` fields of all tokens of `tokenize`, in stream order, yields the
input back — the token stream covers the whole input with no gaps and no
overlaps. -/
theorem tokenize_reconstructs (s : List Char) :
    ((tokenize s).map Token.value).flatten = s := by
  have := tokenizeAux_concat s s.length 0 (by omega)
  simpa [tokenize] using this

/-- **C8**, amended: every token of `tokenize` satisfies `start < end` and
`start < length s`, and consecutive tokens are contiguous (`end` of one is
`start` of the next), so every token except possibly the last has
`end ≤ length s`; the final token's `end` may exceed the input length
(e.g. for an unterminated block comment). -/
theorem tokenize_offsets_amended (s : List Char) :
    (∀ t ∈ tokenize s, 0 ≤ t.start ∧ t.start < t.endPos ∧ t.start < s.length) ∧
    (∀ i : Nat, ∀ h : i + 1 < (tokenize s).length,
      ((tokenize s).get ⟨i, by omega⟩).endPos =
        ((tokenize s).get ⟨i + 1, h⟩).start ∧
      ((tokenize s).get ⟨i, by omega⟩).endPos ≤ s.length) := by
  constructor
  · intro t ht
    have := tokenizeAux_mem_bounds s s.length 0 t ht
    exact ⟨Nat.zero_le _, this.2.2, this.2.1⟩
  · intro i h
    have hchain : List.Chain' (fun a b => a.endPos = b.start) (tokenize s) :=
      tokenizeAux_chain s s.length 0
    have hadj := List.chain'_iff_get.mp hchain i (by omega)
    refine ⟨hadj, ?_⟩
    rw [hadj]
    have hmem : (tokenize s).get ⟨i + 1, h⟩ ∈ tokenize s := List.get_mem _ (i + 1) h
    have := tokenizeAux_mem_bounds s s.length 0 _ hmem
    omega

/-- **C8**, counterexample to the claim as stated: on the input `"/*"`
(an unterminated block comment) the single token returned has
`end = 4 > 2 = length`. -/
theorem tokenize_end_overflow_cex :
    tokenize ("/*".toList) =
      [⟨TokenType.MultiLineComment, ("/*".toList), 0, 4⟩] ∧
    ¬(∀ t ∈ tokenize ("/*".toList), t.endPos ≤ ("/*".toList).length) := by
  constructor
  · rfl
  · intro hall
    have := hall ⟨TokenType.MultiLineComment, ("/*".toList), 0, 4⟩ (by rw [show tokenize ("/*".toList) = [⟨TokenType.MultiLineComment, ("/*".toList), 0, 4⟩] from rfl]; exact List.mem_singleton.mpr rfl)
    simp at this

/-! ## Claim theorems: block finder (C1, C7) and transformer examples (C4) -/

/-- **C1**, counterexample: on `"gen { a; gen { b } c }"` the finder does
not return exactly one block — the nested `gen` block is reported too. -/
theorem findGenBlocks_nested_cex :
    ¬((findGenBlocks ("gen \x7b a; gen \x7b b \x7d c \x7d".toList)).length = 1) := by
  decide

/-- **C1**, amended: on `"gen { a; gen { b } c }"` the nested block is
consumed by the outer block's own brace balancing — the outer block's
content is the full `" a; gen { b } c "` slice — but the token loop then
also reports the nested `gen { b }` as a second block of its own, so
exactly two blocks are returned. -/
theorem findGenBlocks_nested_amended :
    findGenBlocks ("gen \x7b a; gen \x7b b \x7d c \x7d".toList) =
      [⟨0, 22, (" a; gen \x7b b \x7d c ".toList), 4⟩,
       ⟨9, 18, (" b ".toList), 13⟩] := by
  decide

/-- **C4** (scope exclusion): a bind line on its own line inside the
brace-delimited body of `arr.map(function (x) { … })` is passed through
verbatim, while the same bind line inside `if (cond) { … }` is rewritten
to the desugared `const y = yield* f(x)` form. -/
theorem transform_scope_exclusion :
    transformBlockContent ("arr.map(function (x) \x7b\n  y <- f(x)\n\x7d)".toList) =
      ("arr.map(function (x) \x7b\n  y <- f(x)\n\x7d)".toList) ∧
    transformBlockContent ("if (cond) \x7b\n  y <- f(x)\n\x7d".toList) =
      ("if (cond) \x7b\n  const y = yield* f(x)\n\x7d".toList) := by
  decide

/-- **C7**, counterexample: with a comment separating `gen` from `{`, the
tokens do form a candidate in the sense of the claim — a `gen` identifier
token whose next significant token is a balanced `{` punctuator — yet
`findGenBlocks` reports nothing, because the `hasGenBlocks` textual
pre-check (`gen` + optional `\s` + `{`) fails on the comment. -/
theorem findGenBlocks_comment_cex :
    (tokenize ("gen /*c*/ \x7b\x7d".toList))[0]? =
      some ⟨TokenType.IdentifierName, ("gen".toList), 0, 3⟩ ∧
    nextSig (tokenize ("gen /*c*/ \x7b\x7d".toList)) 1 = 4 ∧
    (tokenize ("gen /*c*/ \x7b\x7d".toList))[4]? =
      some ⟨TokenType.Punctuator, ['\x7b'], 10, 11⟩ ∧
    (matchBrace (tokenize ("gen /*c*/ \x7b\x7d".toList)) 5 1).2 = 0 ∧
    hasGenBlocks ("gen /*c*/ \x7b\x7d".toList) = false ∧
    findGenBlocks ("gen /*c*/ \x7b\x7d".toList) = [] := by
  decide

/-- **C7**, amended: whenever the textual pre-check `hasGenBlocks` passes,
every token-level candidate — a `gen` identifier token followed, after
skipping whitespace/terminator/comment tokens, by a `{` punctuator whose
brace scan balances to depth 0 — yields a reported block (with the `gen`
token's start, the closing token's end, and the content slice between the
braces).  The pre-check is a real additional requirement: see the
counterexample, where a comment separates `gen` from `{`. -/
theorem findGenBlocks_candidate_found (s : List Char) (i : Nat)
    (htext : hasGenBlocks s = true)
    (tok : Token) (htok : (tokenize s)[i]? = some tok)
    (hgenTy : tok.type = TokenType.IdentifierName)
    (hgenVal : tok.value = ("gen".toList))
    (braceTok : Token)
    (hbrace : (tokenize s)[nextSig (tokenize s) (i + 1)]? = some braceTok)
    (hbraceTy : braceTok.type = TokenType.Punctuator)
    (hbraceVal : braceTok.value = ['\x7b'])
    (hbal : (matchBrace (tokenize s) (nextSig (tokenize s) (i + 1) + 1) 1).2 = 0)
    (endTok : Token)
    (hend : (tokenize s)[(matchBrace (tokenize s) (nextSig (tokenize s) (i + 1) + 1) 1).1 - 1]? =
      some endTok) :
    (⟨tok.start, endTok.endPos,
      sliceList s (braceTok.start + 1) (endTok.endPos - 1), braceTok.start⟩ : GenBlock) ∈
      findGenBlocks s := by
  have hcand : candidateAt s (tokenize s) i =
      some ⟨tok.start, endTok.endPos,
        sliceList s (braceTok.start + 1) (endTok.endPos - 1), braceTok.start⟩ := by
    unfold candidateAt
    rw [htok]
    simp only [hgenTy, hgenVal, and_self, if_true]
    rw [hbrace]
    simp only [hbraceTy, hbraceVal, and_self, if_true]
    rw [if_pos hbal]
    rw [hend]
  have hi : i < (tokenize s).length := by
    by_contra hge
    push_neg at hge
    rw [List.getElem?_eq_none hge] at htok
    cases htok
  unfold findGenBlocks
  rw [if_pos htext]
  exact List.mem_filterMap.mpr ⟨i, List.mem_range.mpr hi, hcand⟩

/-- **C7** witness: on the plain input `"gen {}"` the hypotheses of the
amended claim hold at token index 0 and the block is reported. -/
theorem findGenBlocks_candidate_found_witness :
    (⟨0, 6, sliceList ("gen \x7b\x7d".toList) 5 5, 4⟩ : GenBlock) ∈
      findGenBlocks ("gen \x7b\x7d".toList) :=
  findGenBlocks_candidate_found ("gen \x7b\x7d".toList) 0 (by decide)
    ⟨TokenType.IdentifierName, ("gen".toList), 0, 3⟩ (by decide) (by decide) (by decide)
    ⟨TokenType.Punctuator, ['\x7b'], 4, 5⟩ (by decide) (by decide) (by decide) (by decide)
    ⟨TokenType.Punctuator, ['\x7d'], 5, 6⟩ (by decide)

/-! ## C2: the full editor → codec → mapper pipeline at a concrete input -/

def c2Editor : TextEditor :=
  ⟨("abcdef".toList), [Edit.overwrite 1 4 ("X".toList)]⟩

def c2Mapper : PositionMapper :=
  ⟨decodeMappings (generateMap c2Editor none none false).mappings,
   ("abcdef".toList), editorToString c2Editor⟩

/-- **C2**: monotonicity of `originalToTransformed` fails on a map produced
by `generateMap`.  Overwriting `[1,4)` of `"abcdef"` with `"X"` gives
`"aXef"`; the encoder's duplicate-dropping (positions 1–3 all map to
generated column 1, only the first is kept) combined with the mapper's
column-offset extrapolation sends original offset 3 to transformed offset
3 but original offset 4 to transformed offset 2. -/
theorem originalToTransformed_not_monotone :
    editorToString c2Editor = ("aXef".toList) ∧
    originalToTransformed c2Mapper 3 = 3 ∧
    originalToTransformed c2Mapper 4 = 2 ∧
    ¬((3 : Nat) < 4 → originalToTransformed c2Mapper 3 ≤ originalToTransformed c2Mapper 4) := by
  decide

/-- **C8** witness: the amended invariants evaluated on `"a b"` (three
tokens) at the first token and first adjacent pair. -/
theorem tokenize_offsets_amended_witness :
    (0 ≤ (⟨TokenType.IdentifierName, ['a'], 0, 1⟩ : Token).start ∧
     (⟨TokenType.IdentifierName, ['a'], 0, 1⟩ : Token).start <
       (⟨TokenType.IdentifierName, ['a'], 0, 1⟩ : Token).endPos ∧
     (⟨TokenType.IdentifierName, ['a'], 0, 1⟩ : Token).start < ("a b".toList).length) ∧
    ((tokenize ("a b".toList)).get ⟨0, by decide⟩).endPos =
      ((tokenize ("a b".toList)).get ⟨1, by decide⟩).start ∧
    ((tokenize ("a b".toList)).get ⟨0, by decide⟩).endPos ≤ ("a b".toList).length :=
  ⟨(tokenize_offsets_amended ("a b".toList)).1
      ⟨TokenType.IdentifierName, ['a'], 0, 1⟩ (by decide),
   ((tokenize_offsets_amended ("a b".toList)).2 0 (by decide)).1,
   ((tokenize_offsets_amended ("a b".toList)).2 0 (by decide)).2⟩

/-! ## C9: identity fallback of the position mapper -/

theorem findPrevGenLine_none (mappings : List DecodedMapping) :
    ∀ l : Nat, (∀ k : Nat, 1 ≤ k → k ≤ l → ∀ m ∈ mappings, m.generatedLine ≠ (k : Int)) →
      findPrevGenLine mappings l = none := by
  intro l
  induction l with
  | zero => intro _; rfl
  | succ n ih =>
    intro h
    simp only [findPrevGenLine]
    have hfilter : mappings.filter (fun m => m.generatedLine = ((n + 1 : Nat) : Int)) = [] := by
      rw [List.filter_eq_nil_iff]
      intro m hm
      simp only [decide_eq_true_eq]
      exact h (n + 1) (by omega) (by omega) m hm
    rw [hfilter]
    simp only [List.isEmpty_nil, if_true]
    exact ih (fun k h1 h2 m hm => h k h1 (by omega) m hm)

theorem findPrevOrigLine_none (mappings : List DecodedMapping) :
    ∀ l : Nat, (∀ k : Nat, 1 ≤ k → k ≤ l → ∀ m ∈ mappings, m.originalLine ≠ (k : Int)) →
      findPrevOrigLine mappings l = none := by
  intro l
  induction l with
  | zero => intro _; rfl
  | succ n ih =>
    intro h
    simp only [findPrevOrigLine]
    have hfilter : mappings.filter (fun m => m.originalLine = ((n + 1 : Nat) : Int)) = [] := by
      rw [List.filter_eq_nil_iff]
      intro m hm
      simp only [decide_eq_true_eq]
      exact h (n + 1) (by omega) (by omega) m hm
    rw [hfilter]
    simp only [List.isEmpty_nil, if_true]
    exact ih (fun k h1 h2 m hm => h k h1 (by omega) m hm)

theorem positionToLineColumn_line_pos (source : List Char) (pos : Nat) :
    1 ≤ (positionToLineColumn source pos).1 := by
  unfold positionToLineColumn
  cases h : splitOnChar '\n' (source.take pos) with
  | nil => exact absurd h (splitOnChar_ne_nil '\n' (source.take pos))
  | cons p ps => simp [h]

/-- **C9** (identity fallback): if no decoded mapping lies on the queried
offset's line or on any earlier line (in the respective queried space),
`transformedToOriginal` and `originalToTransformed` both return the queried
offset unchanged rather than failing. -/
theorem mapper_identity_fallback (mappings : List DecodedMapping)
    (origSrc transSrc : List Char) (posT posO : Nat)
    (hT : ∀ m ∈ mappings, ∀ l : Nat, 1 ≤ l →
      l ≤ (positionToLineColumn transSrc posT).1 → m.generatedLine ≠ (l : Int))
    (hO : ∀ m ∈ mappings, ∀ l : Nat, 1 ≤ l →
      l ≤ (positionToLineColumn origSrc posO).1 → m.originalLine ≠ (l : Int)) :
    transformedToOriginal ⟨mappings, origSrc, transSrc⟩ posT = (posT : Int) ∧
    originalToTransformed ⟨mappings, origSrc, transSrc⟩ posO = (posO : Int) := by
  constructor
  · unfold transformedToOriginal
    dsimp only
    have hline := positionToLineColumn_line_pos transSrc posT
    have hnone : findMappingForGenerated mappings (positionToLineColumn transSrc posT).1
        ((positionToLineColumn transSrc posT).2 : Int) = none := by
      unfold findMappingForGenerated
      have hfilter : mappings.filter
          (fun m => m.generatedLine = (((positionToLineColumn transSrc posT).1 : Nat) : Int)) = [] := by
        rw [List.filter_eq_nil_iff]
        intro m hm
        simp only [decide_eq_true_eq]
        exact hT m hm _ hline (Nat.le_refl _)
      rw [hfilter]
      simp only [List.isEmpty_nil, if_true]
      exact findPrevGenLine_none mappings _
        (fun k h1 h2 m hm => hT m hm k h1 (by omega))
    rw [hnone]
  · unfold originalToTransformed
    dsimp only
    have hline := positionToLineColumn_line_pos origSrc posO
    have hnone : findMappingForOriginal mappings (positionToLineColumn origSrc posO).1
        ((positionToLineColumn origSrc posO).2 : Int) = none := by
      unfold findMappingForOriginal
      have hfilter : mappings.filter
          (fun m => m.originalLine = (((positionToLineColumn origSrc posO).1 : Nat) : Int)) = [] := by
        rw [List.filter_eq_nil_iff]
        intro m hm
        simp only [decide_eq_true_eq]
        exact hO m hm _ hline (Nat.le_refl _)
      rw [hfilter]
      simp only [List.isEmpty_nil, if_true]
      exact findPrevOrigLine_none mappings _
        (fun k h1 h2 m hm => hO m hm k h1 (by omega))
    rw [hnone]

/-- **C9** witness: a mapper whose only decoded mapping lies on line 5 of
both spaces, queried at offset 2 on line 1 of `"ab\ncd"`: both directions
return the offset unchanged. -/
theorem mapper_identity_fallback_witness :
    transformedToOriginal
        ⟨[⟨5, 0, 0, 5, 0, none⟩], ("ab\ncd".toList), ("ab\ncd".toList)⟩ 2 = (2 : Int) ∧
    originalToTransformed
        ⟨[⟨5, 0, 0, 5, 0, none⟩], ("ab\ncd".toList), ("ab\ncd".toList)⟩ 2 = (2 : Int) :=
  mapper_identity_fallback [⟨5, 0, 0, 5, 0, none⟩] ("ab\ncd".toList) ("ab\ncd".toList) 2 2
    (by decide) (by decide)

/-! ## Transformer lemmas: bind-line shape, trimming, emission -/

theorem lastIs_append (a b : List Char) (c : Char) (hb : b ≠ []) :
    lastIs (a ++ b) c = lastIs b c := by
  unfold lastIs
  rw [List.getLast?_append, List.getLast?_eq_getLast b hb]
  rfl

theorem head?_dropWhile_not (p : Char → Bool) :
    ∀ (l : List Char) (c : Char), (l.dropWhile p).head? = some c → p c = false := by
  intro l
  induction l with
  | nil => intro c h; cases h
  | cons a l ih =>
    intro c h
    rw [List.dropWhile_cons] at h
    by_cases hp : p a = true
    · rw [if_pos hp] at h
      exact ih c h
    · rw [if_neg hp] at h
      simp only [List.head?_cons, Option.some.injEq] at h
      subst h
      exact Bool.not_eq_true _ ▸ (by simpa using hp)

theorem dropWhile_eq_self_of_head (p : Char → Bool) (l : List Char) (c : Char)
    (hh : l.head? = some c) (hc : p c = false) : l.dropWhile p = l := by
  cases l with
  | nil => cases hh
  | cons a l =>
    simp only [List.head?_cons, Option.some.injEq] at hh
    subst hh
    rw [List.dropWhile_cons, if_neg (by simp [hc])]

theorem mem_jsTrim (l : List Char) (c : Char) (h : c ∈ jsTrim l) : c ∈ l := by
  unfold jsTrim at h
  rw [List.mem_reverse] at h
  have h2 := (List.dropWhile_suffix isJsWs).mem h
  rw [List.mem_reverse] at h2
  exact (List.dropWhile_suffix isJsWs).mem h2

theorem mem_jsTrimEnd (l : List Char) (c : Char) (h : c ∈ jsTrimEnd l) : c ∈ l := by
  unfold jsTrimEnd at h
  rw [List.mem_reverse] at h
  have h2 := (List.dropWhile_suffix isJsWs).mem h
  rw [List.mem_reverse] at h2
  exact h2

theorem jsTrim_getLast_not_ws (l : List Char) (c : Char)
    (h : (jsTrim l).getLast? = some c) : isJsWs c = false := by
  unfold jsTrim at h
  rw [List.getLast?_reverse] at h
  exact head?_dropWhile_not isJsWs _ c h

theorem jsTrimEnd_eq_self (e : List Char) (c : Char)
    (hl : e.getLast? = some c) (hc : isJsWs c = false) : jsTrimEnd e = e := by
  unfold jsTrimEnd
  rw [dropWhile_eq_self_of_head isJsWs e.reverse c (by rw [List.head?_reverse]; exact hl) hc]
  exact List.reverse_reverse e

theorem getLast?_of_suffix (e t : List Char) (hs : e <:+ t) (hne : e ≠ []) :
    t.getLast? = e.getLast? := by
  obtain ⟨pre, rfl⟩ := hs
  rw [List.getLast?_append, List.getLast?_eq_getLast e hne]
  rfl

theorem bindTail_shape (v rest : List Char) (v' e : List Char)
    (h : bindTail v rest = some (v', e)) : v' = v ∧ e ≠ [] ∧ e <:+ rest := by
  unfold bindTail at h
  split at h
  · next rest2 heq =>
    have hrest2 : rest2 <:+ rest := by
      have hsuffix := List.dropWhile_suffix (l := rest) isJsWs
      rw [heq] at hsuffix
      exact (List.suffix_cons '-' rest2).trans ((List.suffix_cons '<' _).trans hsuffix)
    dsimp only at h
    split at h
    · next hne =>
      split at h
      · next =>
        simp only [Option.some.injEq, Prod.mk.injEq] at h
        refine ⟨h.1.symm, ?_, ?_⟩
        · rw [← h.2]; exact hne
        · rw [← h.2]
          exact (List.drop_suffix _ rest2).trans hrest2
      · cases h
    · split at h
      · next hcond =>
        split at h
        · simp only [Option.some.injEq, Prod.mk.injEq] at h
          refine ⟨h.1.symm, by rw [← h.2]; simp, ?_⟩
          rw [← h.2]
          have hlast : [rest2.getLast hcond.2] <:+ rest2 :=
            ⟨rest2.dropLast, List.dropLast_append_getLast hcond.2⟩
          exact hlast.trans hrest2
        · cases h
      · cases h
  · cases h

theorem bindMatch_shape (t v e : List Char) (h : bindMatch t = some (v, e)) :
    e ≠ [] ∧ e <:+ t := by
  unfold bindMatch at h
  cases t with
  | nil => cases h
  | cons c cs =>
    dsimp only at h
    by_cases hw : isWordChar c = true
    · rw [if_pos hw] at h
      have := bindTail_shape _ _ _ _ h
      exact ⟨this.2.1, this.2.2.trans (List.drop_suffix _ _)⟩
    · rw [if_neg hw] at h
      by_cases hb : c = '['
      · rw [if_pos hb] at h
        split at h
        · have := bindTail_shape _ _ _ _ h
          exact ⟨this.2.1, this.2.2.trans ((List.drop_suffix _ _).trans (List.drop_suffix _ _))⟩
        · cases h
      · rw [if_neg hb] at h
        by_cases hb2 : c = '\x7b'
        · rw [if_pos hb2] at h
          split at h
          · have := bindTail_shape _ _ _ _ h
            exact ⟨this.2.1, this.2.2.trans ((List.drop_suffix _ _).trans (List.drop_suffix _ _))⟩
          · cases h
        · rw [if_neg hb2] at h
          cases h

theorem bindMatch_v_mem (t v e : List Char) (h : bindMatch t = some (v, e)) :
    ∀ c ∈ v, c ∈ t ∨ c = '[' ∨ c = ']' ∨ c = '\x7b' ∨ c = '\x7d' := by
  unfold bindMatch at h
  cases t with
  | nil => cases h
  | cons c0 cs =>
    dsimp only at h
    intro c hc
    by_cases hw : isWordChar c0 = true
    · rw [if_pos hw] at h
      have hv := (bindTail_shape _ _ _ _ h).1
      subst hv
      exact Or.inl (((List.takeWhile_sublist _).mem) hc)
    · rw [if_neg hw] at h
      by_cases hb : c0 = '['
      · rw [if_pos hb] at h
        split at h
        · have hv := (bindTail_shape _ _ _ _ h).1
          subst hv
          rcases List.mem_cons.mp hc with hc | hc
          · exact Or.inr (Or.inl hc)
          · rcases List.mem_append.mp hc with hc | hc
            · exact Or.inl ((List.drop_suffix 1 (c0 :: cs)).mem
                ((List.takeWhile_sublist _).mem hc))
            · simp only [List.mem_singleton] at hc
              exact Or.inr (Or.inr (Or.inl hc))
        · cases h
      · rw [if_neg hb] at h
        by_cases hb2 : c0 = '\x7b'
        · rw [if_pos hb2] at h
          split at h
          · have hv := (bindTail_shape _ _ _ _ h).1
            subst hv
            rcases List.mem_cons.mp hc with hc | hc
            · exact Or.inr (Or.inr (Or.inr (Or.inl hc)))
            · rcases List.mem_append.mp hc with hc | hc
              · exact Or.inl ((List.drop_suffix 1 (c0 :: cs)).mem
                  ((List.takeWhile_sublist _).mem hc))
              · simp only [List.mem_singleton] at hc
                exact Or.inr (Or.inr (Or.inr (Or.inr hc)))
          · cases h
        · rw [if_neg hb2] at h
          cases h

theorem takeWhile_append_stop (p : Char → Bool) (l1 l2 : List Char) (c : Char)
    (h1 : ∀ x ∈ l1, p x = true) (hc : p c = false) :
    (l1 ++ c :: l2).takeWhile p = l1 := by
  induction l1 with
  | nil => simp [List.takeWhile_cons, hc]
  | cons a l ih =>
    have ha := h1 a (List.mem_cons_self a l)
    simp only [List.cons_append, List.takeWhile_cons, ha, if_true]
    rw [ih (fun x hx => h1 x (List.mem_cons_of_mem a hx))]

theorem takeWhile_append_head (p : Char → Bool) (l1 l2 : List Char) (c : Char)
    (h1 : ∀ x ∈ l1, p x = true) (hh : l2.head? = some c) (hc : p c = false) :
    (l1 ++ l2).takeWhile p = l1 := by
  cases l2 with
  | nil => cases hh
  | cons a t =>
    simp only [List.head?_cons, Option.some.injEq] at hh
    exact takeWhile_append_stop p l1 t a h1 (hh ▸ hc)

theorem emitBind_eq (line v e : List Char) :
    emitBind line v e =
      line.takeWhile isJsWs ++ (("const ".toList) ++ (v ++ ((" = yield* ".toList) ++
        (stripSemiWs e ++ (if lastIs (jsTrimEnd e) ';' then [';'] else []))))) := by
  simp only [emitBind, List.append_assoc]

/-- **C5** (bind rewrite): `transformBlockContent "x <- fetchFoo()\n"`
produces `"const x = yield* fetchFoo()\n"` — a binding of `x` to the
suspended (`yield*`) evaluation of `fetchFoo()` with no trailing semicolon —
and in general every matched bind line is emitted with exactly the line's
own leading indentation and with a trailing semicolon exactly when the
(trimmed) bind line had one. -/
theorem transform_bind_rewrite :
    transformBlockContent ("x <- fetchFoo()\n".toList) =
      ("const x = yield* fetchFoo()\n".toList) ∧
    ∀ line v e, bindMatch (jsTrim line) = some (v, e) →
      (emitBind line v e).takeWhile isJsWs = line.takeWhile isJsWs ∧
      lastIs (emitBind line v e) ';' = lastIs (jsTrim line) ';' := by
  constructor
  · decide
  · intro line v e h
    obtain ⟨hne, hsuf⟩ := bindMatch_shape _ _ _ h
    have htne : jsTrim line ≠ [] := by
      intro habs
      rw [habs] at hsuf
      exact hne (List.suffix_nil.mp hsuf)
    obtain ⟨cl, hcl⟩ : ∃ cl, (jsTrim line).getLast? = some cl := by
      cases hgl : (jsTrim line).getLast? with
      | none => exact absurd (List.getLast?_eq_none_iff.mp hgl) htne
      | some x => exact ⟨x, rfl⟩
    have hclws : isJsWs cl = false := jsTrim_getLast_not_ws line cl hcl
    have hlast : e.getLast? = some cl := by
      rw [← getLast?_of_suffix e (jsTrim line) hsuf hne]
      exact hcl
    have htrimEnd : jsTrimEnd e = e := jsTrimEnd_eq_self e cl hlast hclws
    have hlast_te : lastIs e ';' = lastIs (jsTrim line) ';' := by
      unfold lastIs
      rw [hlast, hcl]
    refine ⟨?_, ?_⟩
    · rw [emitBind_eq]
      exact takeWhile_append_head isJsWs (line.takeWhile isJsWs) _ 'c'
        (fun x hx => List.mem_takeWhile_imp hx) rfl (by decide)
    · rw [← hlast_te, emitBind_eq]
      by_cases hs : lastIs e ';' = true
      · have hsemi : lastIs (jsTrimEnd e) ';' = true := by rw [htrimEnd]; exact hs
        rw [hs, hsemi]
        simp only [if_true]
        rw [lastIs_append _ _ _ (by simp)]
        rw [lastIs_append _ _ _ (by simp)]
        rw [lastIs_append _ _ _ (by simp)]
        rw [lastIs_append _ _ _ (by simp)]
        rw [lastIs_append _ _ _ (by simp)]
        rfl
      · have hs' : lastIs e ';' = false := (Bool.not_eq_true _).mp hs
        have hsemi : lastIs (jsTrimEnd e) ';' = false := by rw [htrimEnd]; exact hs'
        have hstrip : stripSemiWs e = e := by
          unfold stripSemiWs
          dsimp only
          rw [htrimEnd, hs']
          simp
        rw [hsemi, hstrip]
        rw [if_neg (by simp), List.append_nil]
        rw [lastIs_append _ _ _ (by simp [hne])]
        rw [lastIs_append _ _ _ (by simp [hne])]
        rw [lastIs_append _ _ _ (by simp [hne])]
        rw [lastIs_append _ _ _ hne]

/-- **C5** witness: the general part applied to the bind line
`"  y <- f();"` (indented, with trailing semicolon). -/
theorem transform_bind_rewrite_witness :
    (emitBind ("  y <- f();".toList) (['y']) ("f();".toList)).takeWhile isJsWs =
      ("  y <- f();".toList).takeWhile isJsWs ∧
    lastIs (emitBind ("  y <- f();".toList) (['y']) ("f();".toList)) ';' =
      lastIs (jsTrim ("  y <- f();".toList)) ';' :=
  transform_bind_rewrite.2 ("  y <- f();".toList) (['y']) ("f();".toList) (by decide)

/-! ## C10: the transformation is line-for-line -/

theorem mem_stripSemiWs (e : List Char) (c : Char) (h : c ∈ stripSemiWs e) : c ∈ e := by
  unfold stripSemiWs at h
  dsimp only at h
  split at h
  · exact mem_jsTrimEnd e c (List.mem_of_mem_dropLast h)
  · exact mem_jsTrimEnd e c h

theorem emitBind_no_newline (line v e : List Char)
    (hline : '\n' ∉ line) (hmatch : bindMatch (jsTrim line) = some (v, e)) :
    '\n' ∉ emitBind line v e := by
  intro hmem
  rw [emitBind_eq] at hmem
  simp only [List.mem_append] at hmem
  rcases hmem with hmem | hmem | hmem | hmem | hmem | hmem
  · exact hline ((List.takeWhile_sublist isJsWs).mem hmem)
  · exact absurd hmem (by decide)
  · rcases bindMatch_v_mem _ _ _ hmatch '\n' hmem with hc | hc | hc | hc | hc
    · exact hline (mem_jsTrim line '\n' hc)
    · cases hc
    · cases hc
    · cases hc
    · cases hc
  · exact absurd hmem (by decide)
  · have he : '\n' ∈ e := mem_stripSemiWs e '\n' hmem
    have := (bindMatch_shape _ _ _ hmatch).2.mem he
    exact hline (mem_jsTrim line '\n' this)
  · split at hmem
    · simp only [List.mem_singleton] at hmem
      cases hmem
    · cases hmem

theorem transformLine_no_newline (tokens : List Token) (line : List Char) (a b : Nat)
    (h : '\n' ∉ line) : '\n' ∉ transformLine tokens line a b := by
  unfold transformLine
  dsimp only
  split
  · exact h
  · split
    · split
      · next v e heq => exact emitBind_no_newline line v e h heq
      · exact h
    · exact h

theorem transformLines_length (tokens : List Token) :
    ∀ (lines : List (List Char)) (ls : Nat),
      (transformLines tokens lines ls).length = lines.length := by
  intro lines
  induction lines with
  | nil => intro ls; rfl
  | cons line rest ih =>
    intro ls
    simp only [transformLines, List.length_cons]
    rw [ih]

theorem mem_transformLines (tokens : List Token) :
    ∀ (lines : List (List Char)) (ls : Nat) (p : List Char),
      p ∈ transformLines tokens lines ls →
      ∃ line ∈ lines, ∃ a b, p = transformLine tokens line a b := by
  intro lines
  induction lines with
  | nil => intro ls p hp; cases hp
  | cons line rest ih =>
    intro ls p hp
    simp only [transformLines] at hp
    rcases List.mem_cons.mp hp with hp | hp
    · exact ⟨line, List.mem_cons_self line rest, ls, ls + line.length, hp⟩
    · obtain ⟨l2, hl2, a, b, heq⟩ := ih _ p hp
      exact ⟨l2, List.mem_cons_of_mem line hl2, a, b, heq⟩

theorem transformLines_get_verbatim (tokens : List Token) :
    ∀ (lines : List (List Char)) (ls i : Nat) (h : i < lines.length)
      (h' : i < (transformLines tokens lines ls).length),
      ((jsTrim (lines.get ⟨i, h⟩)).isEmpty = true ∨
        startsWithSlashSlash (jsTrim (lines.get ⟨i, h⟩)) = true) →
      (transformLines tokens lines ls).get ⟨i, h'⟩ = lines.get ⟨i, h⟩ := by
  intro lines
  induction lines with
  | nil => intro ls i h; simp at h
  | cons line rest ih =>
    intro ls i h h' hcond
    cases i with
    | zero =>
      simp only [transformLines, List.get] at h' ⊢
      simp only [List.get] at hcond
      have hb : ((jsTrim line).isEmpty || startsWithSlashSlash (jsTrim line)) = true := by
        rcases hcond with hc | hc <;> simp [hc]
      unfold transformLine
      dsimp only
      rw [if_pos hb]
    | succ n =>
      simp only [transformLines, List.get] at h' ⊢
      simp only [List.get] at hcond
      exact ih (ls + line.length + 1) n (by simpa using h) (by simpa using h') hcond

/-- **C10** (line-for-line transformation): for every block content, the
transformed text has exactly as many newline characters as the input, and
every blank line and every line whose trimmed form starts with `//` is
returned verbatim at its own line index. -/
theorem transform_line_for_line (content : List Char) :
    (transformBlockContent content).count '\n' = content.count '\n' ∧
    ∀ i (h : i < (splitOnChar '\n' content).length),
      ((jsTrim ((splitOnChar '\n' content).get ⟨i, h⟩)).isEmpty = true ∨
        startsWithSlashSlash (jsTrim ((splitOnChar '\n' content).get ⟨i, h⟩)) = true) →
      ∃ h2 : i < (splitOnChar '\n' (transformBlockContent content)).length,
        (splitOnChar '\n' (transformBlockContent content)).get ⟨i, h2⟩ =
          (splitOnChar '\n' content).get ⟨i, h⟩ := by
  have hTB : transformBlockContent content =
      joinWith '\n' (transformLines (tokenize content) (splitOnChar '\n' content) 0) := rfl
  have hlen : (transformLines (tokenize content) (splitOnChar '\n' content) 0).length =
      (splitOnChar '\n' content).length :=
    transformLines_length (tokenize content) (splitOnChar '\n' content) 0
  have hne : transformLines (tokenize content) (splitOnChar '\n' content) 0 ≠ [] := by
    intro habs
    have := splitOnChar_ne_nil '\n' content
    rw [habs] at hlen
    simp only [List.length_nil] at hlen
    exact this (List.length_eq_zero.mp hlen.symm)
  have hnl : ∀ p ∈ transformLines (tokenize content) (splitOnChar '\n' content) 0,
      '\n' ∉ p := by
    intro p hp
    obtain ⟨line, hline, a, b, heq⟩ := mem_transformLines _ _ _ p hp
    rw [heq]
    exact transformLine_no_newline _ line a b
      (mem_splitOnChar_not_sep '\n' content line hline)
  have hsplit : splitOnChar '\n' (transformBlockContent content) =
      transformLines (tokenize content) (splitOnChar '\n' content) 0 := by
    rw [hTB]
    exact splitOnChar_joinWith '\n' _ hne hnl
  constructor
  · rw [hTB, count_joinWith '\n' _ hne hnl, hlen]
    have := splitOnChar_length '\n' content
    omega
  · intro i h hcond
    have h2 : i < (splitOnChar '\n' (transformBlockContent content)).length := by
      rw [hsplit, hlen]
      exact h
    refine ⟨h2, ?_⟩
    have hg := List.get_of_eq hsplit ⟨i, h2⟩
    rw [hg]
    exact transformLines_get_verbatim (tokenize content) (splitOnChar '\n' content) 0 i h _ hcond

/-- **C10** witness: on `"// note\nx <- f()\n"` the transformation keeps the
newline count (2) and returns the comment line at index 0 verbatim. -/
theorem transform_line_for_line_witness :
    (transformBlockContent ("// note\nx <- f()\n".toList)).count '\n' =
      ("// note\nx <- f()\n".toList).count '\n' ∧
    ∃ h2 : 0 < (splitOnChar '\n' (transformBlockContent ("// note\nx <- f()\n".toList))).length,
      (splitOnChar '\n' (transformBlockContent ("// note\nx <- f()\n".toList))).get ⟨0, h2⟩ =
        (splitOnChar '\n' ("// note\nx <- f()\n".toList)).get ⟨0, by decide⟩ :=
  ⟨(transform_line_for_line ("// note\nx <- f()\n".toList)).1,
   (transform_line_for_line ("// note\nx <- f()\n".toList)).2 0 (by decide) (by decide)⟩

/-! ## C3: VLQ codec round trip

Stage 1: base-64 digit facts and single-value VLQ round trip. -/

/-- decoding of a finished VLQ digit group: sign in the low bit -/
def vlqSignDecode (n : Nat) : Int :=
  if n % 2 = 1 then -((n / 2 : Nat) : Int) else ((n / 2 : Nat) : Int)

theorem b64_roundtrip : ∀ d : Nat, d < 64 → b64Decode (b64Char d) = some d := by
  decide

theorem b64Char_mem (d : Nat) : b64Char d ∈ b64Chars := by
  unfold b64Char
  by_cases h : d < b64Chars.length
  · rw [List.getD_eq_getElem _ _ h]
    exact List.getElem_mem h
  · rw [List.getD_eq_default _ _ (by omega)]
    decide

theorem semicolon_not_b64 : ';' ∉ b64Chars := by decide

theorem comma_not_b64 : ',' ∉ b64Chars := by decide

theorem encodeRest_mem (fuel v : Nat) : ∀ c ∈ encodeRest fuel v, c ∈ b64Chars := by
  induction fuel generalizing v with
  | zero => intro c hc; cases hc
  | succ n ih =>
    intro c hc
    simp only [encodeRest] at hc
    split at hc
    · simp only [List.mem_singleton] at hc
      exact hc ▸ b64Char_mem _
    · rcases List.mem_cons.mp hc with hc | hc
      · exact hc ▸ b64Char_mem _
      · exact ih _ c hc

theorem encodeVLQ_mem (x : Int) : ∀ c ∈ encodeVLQ x, c ∈ b64Chars := by
  intro c hc
  unfold encodeVLQ at hc
  dsimp only at hc
  split at hc
  · simp only [List.mem_singleton] at hc
    exact hc ▸ b64Char_mem _
  · rcases List.mem_cons.mp hc with hc | hc
    · exact hc ▸ b64Char_mem _
    · exact encodeRest_mem _ _ c hc

theorem encodeVLQ_ne_nil (x : Int) : encodeVLQ x ≠ [] := by
  unfold encodeVLQ
  dsimp only
  split
  · simp
  · simp

theorem decodeVLQAux_encodeRest (rest : List Char) :
    ∀ (fuel v shift value : Nat), v ≠ 0 → v ≤ fuel →
      decodeVLQAux (encodeRest fuel v ++ rest) shift value =
        vlqSignDecode (value + v * 2 ^ shift) :: decodeVLQAux rest 0 0 := by
  intro fuel
  induction fuel with
  | zero => intro v shift value hv hle; omega
  | succ n ih =>
    intro v shift value hv hle
    simp only [encodeRest]
    have hd32 : v % 32 < 32 := Nat.mod_lt v (by omega)
    by_cases h2 : v / 32 = 0
    · rw [if_pos h2]
      simp only [List.cons_append, List.nil_append, decodeVLQAux]
      rw [b64_roundtrip (v % 32) (by omega)]
      simp only
      rw [if_neg (by omega)]
      have hval : value + v % 32 % 32 * 2 ^ shift = value + v * 2 ^ shift := by
        have : v % 32 % 32 = v := by omega
        rw [this]
      rw [hval]
      rfl
    · rw [if_neg h2]
      simp only [List.cons_append, decodeVLQAux]
      rw [b64_roundtrip (v % 32 + 32) (by omega)]
      simp only
      rw [if_pos (by omega)]
      have hlt : v / 32 < v := Nat.div_lt_self (by omega) (by omega)
      have hrec := ih (v / 32) (shift + 5) (value + (v % 32 + 32) % 32 * 2 ^ shift) h2 (by omega)
      simp only [List.append_eq] at hrec ⊢
      rw [hrec]
      congr 2
      have hmod : (v % 32 + 32) % 32 = v % 32 := by omega
      rw [hmod]
      have hpow : 2 ^ (shift + 5) = 2 ^ shift * 32 := by
        rw [pow_add]
        norm_num
      rw [hpow]
      have hsplitv : v % 32 + 32 * (v / 32) = v := Nat.mod_add_div v 32
      calc value + v % 32 * 2 ^ shift + v / 32 * (2 ^ shift * 32)
          = value + (v % 32 + 32 * (v / 32)) * 2 ^ shift := by ring
        _ = value + v * 2 ^ shift := by rw [hsplitv]

theorem vlqSignDecode_even (m : Nat) : vlqSignDecode (2 * m) = (m : Int) := by
  unfold vlqSignDecode
  rw [if_neg (by omega)]
  congr 1
  omega

theorem vlqSignDecode_odd (m : Nat) : vlqSignDecode (2 * m + 1) = -(m : Int) := by
  unfold vlqSignDecode
  rw [if_pos (by omega)]
  congr 1
  omega

theorem vlqSignDecode_sign (x : Int) :
    vlqSignDecode (2 * x.natAbs + (if x < 0 then 1 else 0)) = x := by
  by_cases hx : x < 0
  · rw [if_pos hx, vlqSignDecode_odd]
    omega
  · rw [if_neg hx, Nat.add_zero, vlqSignDecode_even]
    omega

theorem decodeVLQAux_encodeVLQ (x : Int) (rest : List Char) :
    decodeVLQAux (encodeVLQ x ++ rest) 0 0 = x :: decodeVLQAux rest 0 0 := by
  unfold encodeVLQ
  dsimp only
  have hs1 : (if x < 0 then (1 : Nat) else 0) ≤ 1 := by split <;> omega
  have hd0 : x.natAbs % 16 * 2 + (if x < 0 then 1 else 0) < 32 := by
    have := Nat.mod_lt x.natAbs (show 0 < 16 by omega)
    omega
  by_cases h16 : x.natAbs / 16 = 0
  · rw [if_pos h16]
    have hmag : x.natAbs % 16 = x.natAbs := by
      have := Nat.mod_add_div x.natAbs 16
      omega
    simp only [List.cons_append, List.nil_append, decodeVLQAux]
    rw [b64_roundtrip _ (by omega)]
    simp only
    rw [if_neg (by omega)]
    have hval : 0 + (x.natAbs % 16 * 2 + (if x < 0 then 1 else 0)) % 32 * 2 ^ 0 =
        2 * x.natAbs + (if x < 0 then 1 else 0) := by
      rw [Nat.mod_eq_of_lt hd0]
      rw [pow_zero]
      omega
    have hfinal := vlqSignDecode_sign x
    unfold vlqSignDecode at hfinal
    rw [hval, hfinal]
    rfl
  · rw [if_neg h16]
    simp only [List.cons_append, decodeVLQAux]
    rw [b64_roundtrip _ (by omega)]
    simp only
    rw [if_pos (by omega)]
    simp only [List.append_eq]
    rw [decodeVLQAux_encodeRest rest (x.natAbs / 16) (x.natAbs / 16) (0 + 5) _ h16
      (Nat.le_refl _)]
    congr 1
    have hmod : (x.natAbs % 16 * 2 + (if x < 0 then 1 else 0) + 32) % 32 =
        x.natAbs % 16 * 2 + (if x < 0 then 1 else 0) := by omega
    rw [hmod, pow_zero]
    have h1 : x.natAbs % 16 + 16 * (x.natAbs / 16) = x.natAbs := Nat.mod_add_div _ 16
    have hp : (2 : Nat) ^ (0 + 5) = 32 := by norm_num
    rw [hp]
    have harg : 0 + (x.natAbs % 16 * 2 + (if x < 0 then 1 else 0)) * 1 +
        x.natAbs / 16 * 32 = 2 * x.natAbs + (if x < 0 then 1 else 0) := by omega
    rw [harg, vlqSignDecode_sign]

theorem decodeVLQ_singleton (x : Int) : decodeVLQ (encodeVLQ x) = [x] := by
  unfold decodeVLQ
  have := decodeVLQAux_encodeVLQ x []
  simpa using this

theorem decodeVLQ_four (a b c d : Int) :
    decodeVLQ (encodeVLQ a ++ encodeVLQ b ++ encodeVLQ c ++ encodeVLQ d) = [a, b, c, d] := by
  unfold decodeVLQ
  rw [List.append_assoc, List.append_assoc]
  rw [decodeVLQAux_encodeVLQ a, decodeVLQAux_encodeVLQ b, decodeVLQAux_encodeVLQ c]
  have hd : decodeVLQAux (encodeVLQ d) 0 0 = decodeVLQAux (encodeVLQ d ++ []) 0 0 := by
    rw [List.append_nil]
  rw [hd, decodeVLQAux_encodeVLQ d]
  rfl

/-! Stage 2: one encoded line of segments decodes to its mappings. -/

theorem isEmpty_eq_false_of_ne_nil (l : List Char) (h : l ≠ []) : l.isEmpty = false := by
  cases l with
  | nil => exact absurd rfl h
  | cons a t => rfl

theorem seg_ne_nil (a b c d : Int) :
    encodeVLQ a ++ encodeVLQ b ++ encodeVLQ c ++ encodeVLQ d ≠ [] := by
  intro h
  rw [List.append_eq_nil, List.append_eq_nil, List.append_eq_nil] at h
  exact encodeVLQ_ne_nil a h.1.1.1

theorem seg_mem_b64 (a b c d : Int) :
    ∀ x ∈ encodeVLQ a ++ encodeVLQ b ++ encodeVLQ c ++ encodeVLQ d, x ∈ b64Chars := by
  intro x hx
  simp only [List.mem_append] at hx
  rcases hx with ((hx | hx) | hx) | hx
  · exact encodeVLQ_mem a x hx
  · exact encodeVLQ_mem b x hx
  · exact encodeVLQ_mem c x hx
  · exact encodeVLQ_mem d x hx

theorem decodeSegments_encodeSegments :
    ∀ (g : List Mapping) (pg pl pc ni : Int) (lineNum : Nat),
      decodeSegments (encodeSegments g pg pl pc).1 lineNum pg ⟨0, pl, pc, ni⟩ =
        (g.map (fun m => (⟨(lineNum : Int) + 1, (m.generatedColumn : Int), 0,
          (m.originalLine : Int), (m.originalColumn : Int), none⟩ : DecodedMapping)),
         ⟨0, (encodeSegments g pg pl pc).2.1, (encodeSegments g pg pl pc).2.2, ni⟩) := by
  intro g
  induction g with
  | nil => intro pg pl pc ni lineNum; rfl
  | cons m rest ih =>
    intro pg pl pc ni lineNum
    simp only [encodeSegments]
    simp only [decodeSegments]
    rw [isEmpty_eq_false_of_ne_nil _ (seg_ne_nil _ _ _ _)]
    simp only [Bool.false_eq_true, if_false]
    rw [decodeVLQ_four]
    simp only
    have hgen : pg + ((m.generatedColumn : Int) - pg) = (m.generatedColumn : Int) := by ring
    have hst : (⟨0 + 0, pl + (((m.originalLine : Int) - 1) - pl),
        pc + ((m.originalColumn : Int) - pc), ni⟩ : DecState) =
        ⟨0, (m.originalLine : Int) - 1, (m.originalColumn : Int), ni⟩ := by
      simp only [DecState.mk.injEq]
      refine ⟨by ring, by ring, by ring, trivial⟩
    rw [hgen, hst]
    rw [ih (m.generatedColumn : Int) ((m.originalLine : Int) - 1) (m.originalColumn : Int)
      ni lineNum]
    refine Prod.ext ?_ rfl
    dsimp only
    congr 1
    simp only [DecodedMapping.mk.injEq, and_true, true_and]
    omega

/-! Stage 3: all encoded lines decode to their groups. -/

/-- expected decode of a group list starting at a given 0-based line index -/
def groupsDecoded : List (List Mapping) → Nat → List DecodedMapping
  | [], _ => []
  | g :: gs, lineNum =>
    g.map (fun m => (⟨(lineNum : Int) + 1, (m.generatedColumn : Int), 0,
      (m.originalLine : Int), (m.originalColumn : Int), none⟩ : DecodedMapping)) ++
      groupsDecoded gs (lineNum + 1)

theorem encodeSegments_mem :
    ∀ (g : List Mapping) (pg pl pc : Int),
      ∀ s ∈ (encodeSegments g pg pl pc).1, s ≠ [] ∧ ∀ c ∈ s, c ∈ b64Chars := by
  intro g
  induction g with
  | nil => intro pg pl pc s hs; cases hs
  | cons m rest ih =>
    intro pg pl pc s hs
    simp only [encodeSegments] at hs
    rcases List.mem_cons.mp hs with hs | hs
    · subst hs
      exact ⟨seg_ne_nil _ _ _ _, seg_mem_b64 _ _ _ _⟩
    · exact ih _ _ _ s hs

theorem mem_joinWith (sep : Char) :
    ∀ (parts : List (List Char)) (c : Char), c ∈ joinWith sep parts →
      c = sep ∨ ∃ p ∈ parts, c ∈ p := by
  intro parts
  induction parts with
  | nil => intro c hc; cases hc
  | cons p ps ih =>
    intro c hc
    cases ps with
    | nil =>
      exact Or.inr ⟨p, List.mem_singleton.mpr rfl, hc⟩
    | cons q qs =>
      simp only [joinWith] at hc
      rcases List.mem_append.mp hc with hc | hc
      · exact Or.inr ⟨p, List.mem_cons_self p _, hc⟩
      · rcases List.mem_cons.mp hc with hc | hc
        · exact Or.inl hc
        · rcases ih c hc with hc | ⟨r, hr, hcr⟩
          · exact Or.inl hc
          · exact Or.inr ⟨r, List.mem_cons_of_mem p hr, hcr⟩

theorem joinWith_segs_ne_nil (segs : List (List Char)) (s0 : List Char)
    (hhead : segs.head? = some s0) (hne : s0 ≠ []) : joinWith ',' segs ≠ [] := by
  cases segs with
  | nil => cases hhead
  | cons p ps =>
    simp only [List.head?_cons, Option.some.injEq] at hhead
    subst hhead
    cases ps with
    | nil => exact hne
    | cons q qs =>
      simp only [joinWith]
      intro habs
      rw [List.append_eq_nil] at habs
      cases habs.2

theorem decodeLines_encodeAllLines :
    ∀ (groups : List (List Mapping)) (lineNum : Nat) (pl pc ni : Int),
      decodeLines (encodeAllLines groups pl pc) lineNum ⟨0, pl, pc, ni⟩ =
        groupsDecoded groups lineNum := by
  intro groups
  induction groups with
  | nil => intro lineNum pl pc ni; rfl
  | cons g gs ih =>
    intro lineNum pl pc ni
    simp only [encodeAllLines, decodeLines, groupsDecoded]
    cases g with
    | nil =>
      simp only [encodeSegments, joinWith, List.isEmpty_nil, if_true, List.map_nil,
        List.nil_append]
      exact ih (lineNum + 1) pl pc ni
    | cons m g' =>
      have hsegs : (encodeSegments (m :: g') 0 pl pc).1 =
          (encodeVLQ ((m.generatedColumn : Int) - 0) ++ encodeVLQ 0 ++
            encodeVLQ (((m.originalLine : Int) - 1) - pl) ++
            encodeVLQ ((m.originalColumn : Int) - pc)) ::
          (encodeSegments g' (m.generatedColumn : Int) ((m.originalLine : Int) - 1)
            (m.originalColumn : Int)).1 := rfl
      have hline_ne : joinWith ',' (encodeSegments (m :: g') 0 pl pc).1 ≠ [] := by
        apply joinWith_segs_ne_nil _ _ (by rw [hsegs]; rfl)
        exact seg_ne_nil _ _ _ _
      rw [isEmpty_eq_false_of_ne_nil _ hline_ne]
      simp only [Bool.false_eq_true, if_false]
      rw [splitOnChar_joinWith ',' _ (by rw [hsegs]; simp) ?hcfree]
      case hcfree =>
        intro p hp hcomma
        have := (encodeSegments_mem _ _ _ _ p hp).2 ',' hcomma
        exact comma_not_b64 this
      rw [decodeSegments_encodeSegments (m :: g') 0 pl pc ni lineNum]
      simp only
      rw [ih (lineNum + 1) _ _ ni]

/-! Stage 4: `buildLines` groups a sorted mapping list by generated line. -/

theorem flatten_replicate_nil (n : Nat) :
    (List.replicate n ([] : List Mapping)).flatten = [] := by
  induction n with
  | zero => rfl
  | succ k ih => simp [List.replicate_succ, ih]

theorem set_last_eq (L : List (List Mapping)) :
    ∀ (k : Nat) (x : List Mapping), k + 1 = L.length → L.set k x = L.take k ++ [x] := by
  induction L with
  | nil => intro k x h; simp at h
  | cons a t ih =>
    intro k x h
    cases k with
    | zero =>
      have ht : t = [] := by
        simp only [List.length_cons] at h
        exact List.length_eq_zero.mp (by omega)
      subst ht
      rfl
    | succ n =>
      show a :: t.set n x = a :: (t.take n ++ [x])
      rw [ih n x (by simpa using h)]

theorem take_concat_getD (L : List (List Mapping)) :
    ∀ (k : Nat), k + 1 = L.length → L.take k ++ [L.getD k []] = L := by
  induction L with
  | nil => intro k h; simp at h
  | cons a t ih =>
    intro k h
    cases k with
    | zero =>
      have ht : t = [] := by
        simp only [List.length_cons] at h
        exact List.length_eq_zero.mp (by omega)
      subst ht
      rfl
    | succ n =>
      show a :: (t.take n ++ [t.getD n []]) = a :: t
      rw [ih n (by simpa using h)]

theorem getD_take_lt (L : List (List Mapping)) (k j : Nat) (h : j < k) :
    (L.take k).getD j [] = L.getD j [] := by
  rw [List.getD_eq_getElem?_getD, List.getD_eq_getElem?_getD, List.getElem?_take, if_pos h]

theorem getD_replicate_nil (n j : Nat) :
    (List.replicate n ([] : List Mapping)).getD j [] = [] := by
  rw [List.getD_eq_getElem?_getD, List.getElem?_replicate]
  split <;> rfl

theorem buildLines_go :
    ∀ (S : List Mapping) (lines0 : List (List Mapping)),
      (∀ m ∈ S, 1 ≤ m.generatedLine) →
      (∀ m ∈ S, lines0.length ≤ m.generatedLine) →
      S.Pairwise (fun a b => a.generatedLine ≤ b.generatedLine) →
      (∀ j, ∀ x ∈ lines0.getD j [], x.generatedLine = j + 1) →
      (S.foldl buildStep lines0).flatten = lines0.flatten ++ S ∧
      (∀ j, ∀ x ∈ (S.foldl buildStep lines0).getD j [], x.generatedLine = j + 1) := by
  intro S
  induction S with
  | nil =>
    intro lines0 _ _ _ hprop
    exact ⟨by simp, hprop⟩
  | cons m S' ih =>
    intro lines0 h1 hlen hpair hprop
    have hgl1 : 1 ≤ m.generatedLine := h1 m (List.mem_cons_self m S')
    have hglen : lines0.length ≤ m.generatedLine := hlen m (List.mem_cons_self m S')
    have hstep : buildStep lines0 m =
        (lines0 ++ List.replicate (m.generatedLine - lines0.length) []).set
          (m.generatedLine - 1)
          ((lines0 ++ List.replicate (m.generatedLine - lines0.length) []).getD
            (m.generatedLine - 1) [] ++ [m]) := rfl
    have hplen : (lines0 ++ List.replicate (m.generatedLine - lines0.length)
        ([] : List Mapping)).length = m.generatedLine := by
      simp only [List.length_append, List.length_replicate]
      omega
    have hk : (m.generatedLine - 1) + 1 =
        (lines0 ++ List.replicate (m.generatedLine - lines0.length)
          ([] : List Mapping)).length := by omega
    have hnew : buildStep lines0 m =
        (lines0 ++ List.replicate (m.generatedLine - lines0.length) []).take
          (m.generatedLine - 1) ++
        [(lines0 ++ List.replicate (m.generatedLine - lines0.length) []).getD
          (m.generatedLine - 1) [] ++ [m]] := by
      rw [hstep, set_last_eq _ _ _ hk]
    have hpad_flatten : (lines0 ++ List.replicate (m.generatedLine - lines0.length)
        ([] : List Mapping)).flatten = lines0.flatten := by
      rw [List.flatten_append, flatten_replicate_nil, List.append_nil]
    have hpadded_decomp :
        (lines0 ++ List.replicate (m.generatedLine - lines0.length) []).take
          (m.generatedLine - 1) ++
        [(lines0 ++ List.replicate (m.generatedLine - lines0.length) []).getD
          (m.generatedLine - 1) []] =
        lines0 ++ List.replicate (m.generatedLine - lines0.length) [] :=
      take_concat_getD _ _ hk
    have hnew_flatten : (buildStep lines0 m).flatten = lines0.flatten ++ [m] := by
      rw [hnew, List.flatten_append]
      have hsingle : ([(lines0 ++ List.replicate (m.generatedLine - lines0.length) []).getD
          (m.generatedLine - 1) [] ++ [m]] : List (List Mapping)).flatten =
          (lines0 ++ List.replicate (m.generatedLine - lines0.length) []).getD
            (m.generatedLine - 1) [] ++ [m] := by simp
      rw [hsingle, ← List.append_assoc]
      have : ((lines0 ++ List.replicate (m.generatedLine - lines0.length) []).take
          (m.generatedLine - 1)).flatten ++
          (lines0 ++ List.replicate (m.generatedLine - lines0.length) []).getD
            (m.generatedLine - 1) [] =
          (lines0 ++ List.replicate (m.generatedLine - lines0.length) []).flatten := by
        conv_rhs => rw [← hpadded_decomp]
        rw [List.flatten_append]
        simp
      rw [this, hpad_flatten]
    have hprev_prop : ∀ x ∈ (lines0 ++ List.replicate (m.generatedLine - lines0.length)
        ([] : List Mapping)).getD (m.generatedLine - 1) [],
        x.generatedLine = (m.generatedLine - 1) + 1 := by
      intro x hx
      by_cases hcase : m.generatedLine - 1 < lines0.length
      · rw [List.getD_append _ _ _ _ hcase] at hx
        exact hprop _ x hx
      · rw [List.getD_append_right _ _ _ _ (by omega)] at hx
        rw [getD_replicate_nil] at hx
        cases hx
    have hnew_prop : ∀ j, ∀ x ∈ (buildStep lines0 m).getD j [], x.generatedLine = j + 1 := by
      intro j x hx
      rw [hnew] at hx
      have htklen : ((lines0 ++ List.replicate (m.generatedLine - lines0.length)
          ([] : List Mapping)).take (m.generatedLine - 1)).length = m.generatedLine - 1 := by
        simp only [List.length_take]
        omega
      by_cases hj : j < m.generatedLine - 1
      · rw [List.getD_append _ _ _ _ (by omega)] at hx
        rw [getD_take_lt _ _ _ hj] at hx
        by_cases hj2 : j < lines0.length
        · rw [List.getD_append _ _ _ _ hj2] at hx
          exact hprop j x hx
        · rw [List.getD_append_right _ _ _ _ (by omega)] at hx
          rw [getD_replicate_nil] at hx
          cases hx
      · by_cases hje : j = m.generatedLine - 1
        · subst hje
          rw [List.getD_append_right _ _ _ _ (by omega)] at hx
          rw [htklen] at hx
          simp only [Nat.sub_self] at hx
          have : ([(lines0 ++ List.replicate (m.generatedLine - lines0.length) []).getD
              (m.generatedLine - 1) [] ++ [m]] : List (List Mapping)).getD 0 [] =
              (lines0 ++ List.replicate (m.generatedLine - lines0.length) []).getD
                (m.generatedLine - 1) [] ++ [m] := rfl
          rw [this] at hx
          rcases List.mem_append.mp hx with hx | hx
          · exact hprev_prop x hx
          · simp only [List.mem_singleton] at hx
            subst hx
            omega
        · rw [List.getD_eq_getElem?_getD] at hx
          have hout : ((lines0 ++ List.replicate (m.generatedLine - lines0.length)
              ([] : List Mapping)).take (m.generatedLine - 1) ++
              [(lines0 ++ List.replicate (m.generatedLine - lines0.length) []).getD
                (m.generatedLine - 1) [] ++ [m]])[j]? = none := by
            apply List.getElem?_eq_none
            simp only [List.length_append, List.length_singleton, htklen]
            omega
          rw [hout] at hx
          cases hx
    have hnewlen : (buildStep lines0 m).length = m.generatedLine := by
      rw [hstep, List.length_set]
      exact hplen
    have hpair' := (List.pairwise_cons.mp hpair)
    have hres := ih (buildStep lines0 m)
      (fun x hxm => h1 x (List.mem_cons_of_mem m hxm))
      (fun x hxm => by rw [hnewlen]; exact hpair'.1 x hxm)
      hpair'.2 hnew_prop
    constructor
    · show ((m :: S').foldl buildStep lines0).flatten = lines0.flatten ++ m :: S'
      simp only [List.foldl_cons]
      rw [hres.1, hnew_flatten]
      simp
    · simp only [List.foldl_cons]
      exact hres.2

/-! Stage 5: the sorted, duplicate-free table survives dedup, and the
round trip assembles. -/

/-- the generated-position key that `encodeMappings` deduplicates on -/
def genKey (m : Mapping) : Nat × Nat := (m.generatedLine, m.generatedColumn)

theorem dedupGo_eq_self :
    ∀ (rest : List Mapping) (last : Mapping),
      (∀ x ∈ rest, ¬(last.generatedLine = x.generatedLine ∧
        last.generatedColumn = x.generatedColumn)) →
      rest.Pairwise (fun a b => ¬(a.generatedLine = b.generatedLine ∧
        a.generatedColumn = b.generatedColumn)) →
      dedupGo last rest = rest := by
  intro rest
  induction rest with
  | nil => intro last _ _; rfl
  | cons x rest' ih =>
    intro last hlast hpair
    simp only [dedupGo]
    rw [if_neg (hlast x (List.mem_cons_self x rest'))]
    have hp := List.pairwise_cons.mp hpair
    rw [ih x hp.1 hp.2]

theorem dedupGen_eq_self (S : List Mapping)
    (hpair : S.Pairwise (fun a b => ¬(a.generatedLine = b.generatedLine ∧
      a.generatedColumn = b.generatedColumn))) :
    dedupGen S = S := by
  cases S with
  | nil => rfl
  | cons m rest =>
    simp only [dedupGen]
    have hp := List.pairwise_cons.mp hpair
    rw [dedupGo_eq_self rest m hp.1 hp.2]

theorem groupsDecoded_eq_map :
    ∀ (groups : List (List Mapping)) (ln : Nat),
      (∀ j, ∀ x ∈ groups.getD j [], x.generatedLine = ln + j + 1) →
      groupsDecoded groups ln = groups.flatten.map toDecoded := by
  intro groups
  induction groups with
  | nil => intro ln _; rfl
  | cons g gs ih =>
    intro ln hprop
    simp only [groupsDecoded, List.flatten_cons, List.map_append]
    congr 1
    · apply List.map_congr_left
      intro x hx
      have hgl : x.generatedLine = ln + 1 := by
        have := hprop 0 x (by simpa using hx)
        omega
      unfold toDecoded
      rw [hgl]
      push_cast
      rfl
    · apply ih (ln + 1)
      intro j x hx
      have := hprop (j + 1) x (by simpa using hx)
      omega

theorem encodeAllLines_semifree :
    ∀ (groups : List (List Mapping)) (pl pc : Int),
      ∀ line ∈ encodeAllLines groups pl pc, ';' ∉ line := by
  intro groups
  induction groups with
  | nil => intro pl pc line hline; cases hline
  | cons g gs ih =>
    intro pl pc line hline
    simp only [encodeAllLines] at hline
    rcases List.mem_cons.mp hline with hline | hline
    · subst hline
      intro hmem
      rcases mem_joinWith ',' _ ';' hmem with hc | ⟨s, hs, hcs⟩
      · cases hc
      · exact semicolon_not_b64 ((encodeSegments_mem _ _ _ _ s hs).2 ';' hcs)
    · exact ih _ _ line hline

/-- **C3**, counterexample: a table containing two entries with the same
generated position (line 1, column 0) but different original positions does
not round trip — the encoder's duplicate-dropping keeps only the first, so
the second pair is absent from the decoded mappings. -/
theorem codec_roundtrip_cex :
    (∀ m ∈ [(⟨1, 0, 1, 0⟩ : Mapping), ⟨2, 5, 1, 0⟩], 1 ≤ m.generatedLine ∧
      1 ≤ m.originalLine ∧ 0 ≤ m.generatedColumn ∧ 0 ≤ m.originalColumn) ∧
    decodeMappings (encodeMappings [(⟨1, 0, 1, 0⟩ : Mapping), ⟨2, 5, 1, 0⟩]) =
      [⟨1, 0, 0, 1, 0, none⟩] ∧
    toDecoded (⟨2, 5, 1, 0⟩ : Mapping) ∉
      decodeMappings (encodeMappings [(⟨1, 0, 1, 0⟩ : Mapping), ⟨2, 5, 1, 0⟩]) := by
  refine ⟨by decide, by decide, by decide⟩

/-- **C3**, amended: for every correspondence table with 1-based lines
(`generatedLine ≥ 1`, `originalLine ≥ 1`, columns are naturals hence
non-negative), all line and column values below `2 ^ 31` (the range on
which the codec's JS 32-bit bitwise arithmetic coincides with the exact
arithmetic of this model — every delta's magnitude is then below `2 ^ 31`),
and in which no two entries share a generated (line, column) position,
decoding the VLQ mappings string produced by encoding the table yields,
for every entry, its full (generatedLine, generatedColumn) →
(originalLine, originalColumn) correspondence (with source index 0 and no
name index).  The no-duplicate condition is necessary (see the
counterexample), and the `2 ^ 31` bound confines the claim to where the
model is faithful: at `generatedColumn = 2 ^ 31` the real decoder's
`(digit & 31) << 30` wraps to 0 while this model's does not. -/
theorem codec_roundtrip_amended (table : List Mapping)
    (hlines : ∀ m ∈ table, 1 ≤ m.generatedLine ∧ 1 ≤ m.originalLine)
    (_hbound : ∀ m ∈ table, m.generatedLine < 2 ^ 31 ∧ m.generatedColumn < 2 ^ 31 ∧
      m.originalLine < 2 ^ 31 ∧ m.originalColumn < 2 ^ 31)
    (hnodup : (table.map genKey).Nodup) :
    ∀ m ∈ table, toDecoded m ∈ decodeMappings (encodeMappings table) := by
  intro m hm
  have hperm : (List.insertionSort mapLE table).Perm table :=
    List.perm_insertionSort mapLE table
  have hsorted : List.Sorted mapLE (List.insertionSort mapLE table) :=
    List.sorted_insertionSort mapLE table
  have hmS : m ∈ List.insertionSort mapLE table := hperm.mem_iff.mpr hm
  have hkeys : (List.insertionSort mapLE table).Pairwise
      (fun a b => ¬(a.generatedLine = b.generatedLine ∧
        a.generatedColumn = b.generatedColumn)) := by
    have h1 : table.Pairwise (fun a b => genKey a ≠ genKey b) :=
      List.pairwise_map.mp hnodup
    have h2 : (List.insertionSort mapLE table).Pairwise
        (fun a b => genKey a ≠ genKey b) :=
      (List.Perm.pairwise_iff (fun h => h.symm) hperm).mpr h1
    refine h2.imp ?_
    intro a b hne hconj
    apply hne
    unfold genKey
    rw [hconj.1, hconj.2]
  have hded : dedupGen (List.insertionSort mapLE table) = List.insertionSort mapLE table :=
    dedupGen_eq_self _ hkeys
  have hSgl : ∀ x ∈ List.insertionSort mapLE table, 1 ≤ x.generatedLine :=
    fun x hx => (hlines x (hperm.mem_iff.mp hx)).1
  have hglpair : (List.insertionSort mapLE table).Pairwise
      (fun a b => a.generatedLine ≤ b.generatedLine) := by
    refine List.Pairwise.imp ?_ hsorted
    intro a b hab
    unfold mapLE at hab
    omega
  have hgo := buildLines_go (List.insertionSort mapLE table) [] hSgl
    (fun x _ => by simp) hglpair
    (by intro j x hx; simp [List.getD] at hx)
  have hflat : (buildLines (List.insertionSort mapLE table)).flatten =
      List.insertionSort mapLE table := by
    have := hgo.1
    simpa [buildLines] using this
  have hprop : ∀ j, ∀ x ∈ (buildLines (List.insertionSort mapLE table)).getD j [],
      x.generatedLine = j + 1 := by
    intro j x hx
    exact hgo.2 j x (by simpa [buildLines] using hx)
  have henc : encodeMappings table =
      joinWith ';' (encodeAllLines (buildLines (List.insertionSort mapLE table)) 0 0) := by
    unfold encodeMappings
    dsimp only
    rw [hded]
  have hSne : List.insertionSort mapLE table ≠ [] := by
    intro h
    rw [h] at hmS
    cases hmS
  have hgne : buildLines (List.insertionSort mapLE table) ≠ [] := by
    intro h
    rw [h] at hflat
    exact hSne hflat.symm
  have hlinesne : encodeAllLines (buildLines (List.insertionSort mapLE table)) 0 0 ≠ [] := by
    cases hbl : buildLines (List.insertionSort mapLE table) with
    | nil => exact absurd hbl hgne
    | cons g gs => simp [encodeAllLines]
  have hdec : decodeMappings (encodeMappings table) =
      groupsDecoded (buildLines (List.insertionSort mapLE table)) 0 := by
    rw [henc]
    unfold decodeMappings
    rw [splitOnChar_joinWith ';' _ hlinesne (encodeAllLines_semifree _ 0 0)]
    exact decodeLines_encodeAllLines _ 0 0 0 0
  rw [hdec, groupsDecoded_eq_map _ 0 (by intro j x hx; have := hprop j x hx; omega), hflat]
  exact List.mem_map_of_mem toDecoded hmS

/-- **C3** witness: the amended round trip applied to a two-entry table
with distinct generated positions and values inside the `2 ^ 31` bound. -/
theorem codec_roundtrip_amended_witness :
    toDecoded (⟨1, 0, 1, 0⟩ : Mapping) ∈
      decodeMappings (encodeMappings [(⟨1, 0, 1, 0⟩ : Mapping), ⟨2, 3, 2, 1⟩]) :=
  codec_roundtrip_amended [⟨1, 0, 1, 0⟩, ⟨2, 3, 2, 1⟩] (by decide) (by decide) (by decide)
    ⟨1, 0, 1, 0⟩ (by decide)
